import Mathlib

/-!
Verification development for the table export engine
(`src/executor/operator/physical_export.cpp`).

The shallow embedding models:
* the shared segment/block/row scan skeleton used by `ExportToCSV`,
  `ExportToJSONL` and `ExportToFVECS` (visibility test, offset budget,
  total row limit, per-file row limit with deferred rotation);
* the batched scan of `ExportToPARQUET` (`consume_block`);
* the logical-type lowering `GetArrowType` / `BuildArrowArray`;
* the FVECS validation and record layout of `ExportToFVECS`;
* CSV header construction and row rendering of `ExportToCSV`.
-/

set_option maxRecDepth 4000

namespace Infinity

/-- A block as seen by the per-row export loop: its `segment_offset()` and the
per-row values already materialized for the selected columns (one `ρ` per row;
for CSV `ρ` is the rendered line, for FVECS the raw embedding bytes). -/
structure ScanBlock (ρ : Type) where
  segOff : Nat
  rows : List ρ

/-- A segment snapshot: the `DeleteFilter` visibility predicate built from the
segment and the transaction's begin timestamp (consumed as an opaque
predicate on segment-relative row offsets), plus the ordered block list. -/
structure ScanSegment (ρ : Type) where
  visible : Nat → Bool
  blocks : List (ScanBlock ρ)

/-- Mutable state of the CSV/JSONL/FVECS export loops: the remaining offset
budget (`offset`), the emitted row counter (`row_count`), the contents of the
produced files in creation order (each file is the list of rows appended to
it; the last file is the currently open one), and whether the total row limit
fired (`goto label_return` in the source). -/
structure ScanState (ρ : Type) where
  offset : Nat
  rowCount : Nat
  files : List (List ρ)
  stop : Bool

/-- Append one emitted row to the currently open (= last) file. -/
def appendLast {ρ : Type} : List (List ρ) → ρ → List (List ρ)
  | [], r => [[r]]
  | [f], r => [f ++ [r]]
  | f :: g :: fs, r => f :: appendLast (g :: fs) r

/-- The file-rotation condition
`row_count > 0 && row_limit_ != 0 && row_count % row_limit_ == 0`
(deferred rotation: tested before the next row is written). -/
def rotateCond (k rc : Nat) : Bool :=
  decide (0 < rc) && decide (k ≠ 0) && decide (rc % k = 0)

/-- Writing one row: rotate to a fresh `.part` file if the rotation condition
holds for the current `row_count`, then append the row to the open file. -/
def pushRow {ρ : Type} (k : Nat) (files : List (List ρ)) (rc : Nat) (r : ρ) :
    List (List ρ) :=
  appendLast (if rotateCond k rc then files ++ [[]] else files) r

/-- Emit one surviving row: write it, bump `row_count`, and record whether the
total limit was just reached (`limit_ != 0 && row_count == limit_`). -/
def emitRow {ρ : Type} (k limit : Nat) (st : ScanState ρ) (r : ρ) : ScanState ρ :=
  { offset := st.offset
    rowCount := st.rowCount + 1
    files := pushRow k st.files st.rowCount r
    stop := decide (limit ≠ 0) && decide (st.rowCount + 1 = limit) }

/-- The per-row body of the scan loop: once the limit fired nothing else
happens (the `goto` skipped the rest); an invisible row is skipped; a visible
row first consumes the offset budget; otherwise it is emitted. -/
def scanRow {ρ : Type} (k limit : Nat) (vis : Bool) (r : ρ) (st : ScanState ρ) :
    ScanState ρ :=
  if st.stop then st
  else if !vis then st
  else if 0 < st.offset then { st with offset := st.offset - 1 }
  else emitRow k limit st r

/-- Row loop of one block; `pos` is the segment-relative offset
`seg_off + row_idx` fed to the visibility predicate. -/
def scanRowsGo {ρ : Type} (k limit : Nat) (visible : Nat → Bool) :
    Nat → List ρ → ScanState ρ → ScanState ρ
  | _, [], st => st
  | pos, r :: rs, st =>
      scanRowsGo k limit visible (pos + 1) rs (scanRow k limit (visible pos) r st)

/-- Block loop of one segment. -/
def scanBlocks {ρ : Type} (k limit : Nat) (visible : Nat → Bool) :
    List (ScanBlock ρ) → ScanState ρ → ScanState ρ
  | [], st => st
  | b :: bs, st =>
      scanBlocks k limit visible bs (scanRowsGo k limit visible b.segOff b.rows st)

/-- Segment loop over the snapshot (`segment_block_index_` in ascending
segment-id order). -/
def scanSegments {ρ : Type} (k limit : Nat) :
    List (ScanSegment ρ) → ScanState ρ → ScanState ρ
  | [], st => st
  | s :: ss, st =>
      scanSegments k limit ss (scanBlocks k limit s.visible s.blocks st)

/-- Run the shared scan loop from a given initial base-file content `seed`
(the CSV sink has already written the optional header into the base file). -/
def runScanFrom {ρ : Type} (k limit offset : Nat) (seed : List (List ρ))
    (segs : List (ScanSegment ρ)) : ScanState ρ :=
  scanSegments k limit segs ⟨offset, 0, seed, false⟩

/-- Run the shared scan loop with an empty base file already open. -/
def runScan {ρ : Type} (segs : List (ScanSegment ρ)) (k limit offset : Nat) :
    ScanState ρ :=
  runScanFrom k limit offset [[]] segs

/-- The physically-visible rows of one block, in row order. -/
def visRowsGo {ρ : Type} (visible : Nat → Bool) : Nat → List ρ → List ρ
  | _, [] => []
  | pos, r :: rs =>
      if visible pos then r :: visRowsGo visible (pos + 1) rs
      else visRowsGo visible (pos + 1) rs

/-- The physically-visible rows of one segment, in (block, row) order. -/
def segVisRows {ρ : Type} (s : ScanSegment ρ) : List ρ :=
  (s.blocks.map (fun b => visRowsGo s.visible b.segOff b.rows)).flatten

/-- The physically-visible rows of the whole snapshot, in scan order. -/
def snapVisRows {ρ : Type} (segs : List (ScanSegment ρ)) : List ρ :=
  (segs.map segVisRows).flatten

/-- Reference semantics of offset/limit applied after visibility filtering:
drop the first `offset` visible rows, then keep at most `limit` of the rest
(`limit = 0` meaning unbounded).  `rc` is the number of rows already emitted
by earlier segments/blocks of the same scan. -/
def emitSeg {ρ : Type} (vrows : List ρ) (ofs limit rc : Nat) : List ρ :=
  (vrows.drop ofs).take (if limit = 0 then vrows.length else limit - rc)

/-- The rows an export emits: visible rows past the offset, limited. -/
def emittedOf {ρ : Type} (vrows : List ρ) (ofs limit : Nat) : List ρ :=
  emitSeg vrows ofs limit 0

/-- Replay of the file-writing bookkeeping alone: write each row in turn,
rotating per `rotateCond`. -/
def filesSim {ρ : Type} (k : Nat) : Nat → List (List ρ) → List ρ → List (List ρ)
  | _, files, [] => files
  | rc, files, r :: rs => filesSim k (rc + 1) (pushRow k files rc r) rs

/-- The scan specialized to an all-visible row list. -/
def scanVis {ρ : Type} (k limit : Nat) : List ρ → ScanState ρ → ScanState ρ
  | [], st => st
  | r :: rs, st => scanVis k limit rs (scanRow k limit true r st)

theorem scanRow_invisible {ρ : Type} (k limit : Nat) (r : ρ) (st : ScanState ρ) :
    scanRow k limit false r st = st := by
  unfold scanRow
  cases h : st.stop <;> simp

theorem scanVis_stopped {ρ : Type} (k limit : Nat) (rows : List ρ)
    (st : ScanState ρ) (h : st.stop = true) :
    scanVis k limit rows st = st := by
  induction rows with
  | nil => rfl
  | cons r rs ih =>
      simp only [scanVis, scanRow, h, if_true]
      exact ih

theorem scanRowsGo_eq_scanVis {ρ : Type} (k limit : Nat) (visible : Nat → Bool)
    (rows : List ρ) :
    ∀ (pos : Nat) (st : ScanState ρ),
      scanRowsGo k limit visible pos rows st
        = scanVis k limit (visRowsGo visible pos rows) st := by
  induction rows with
  | nil => intro pos st; rfl
  | cons r rs ih =>
      intro pos st
      simp only [scanRowsGo, visRowsGo]
      cases h : visible pos
      · simp only [Bool.false_eq_true, if_false]
        rw [scanRow_invisible]
        exact ih (pos + 1) st
      · simp only [if_true]
        simp only [scanVis]
        exact ih (pos + 1) (scanRow k limit true r st)

theorem scanVis_append {ρ : Type} (k limit : Nat) (a b : List ρ)
    (st : ScanState ρ) :
    scanVis k limit (a ++ b) st = scanVis k limit b (scanVis k limit a st) := by
  induction a generalizing st with
  | nil => rfl
  | cons r rs ih => simp only [List.cons_append, scanVis]; exact ih _

theorem scanBlocks_eq_scanVis {ρ : Type} (k limit : Nat) (visible : Nat → Bool)
    (bs : List (ScanBlock ρ)) :
    ∀ st : ScanState ρ,
      scanBlocks k limit visible bs st
        = scanVis k limit ((bs.map (fun b => visRowsGo visible b.segOff b.rows)).flatten) st := by
  induction bs with
  | nil => intro st; rfl
  | cons b bs ih =>
      intro st
      simp only [scanBlocks, List.map_cons, List.flatten_cons, scanVis_append]
      rw [scanRowsGo_eq_scanVis]
      exact ih _

theorem scanSegments_eq_scanVis {ρ : Type} (k limit : Nat)
    (segs : List (ScanSegment ρ)) :
    ∀ st : ScanState ρ,
      scanSegments k limit segs st = scanVis k limit (snapVisRows segs) st := by
  induction segs with
  | nil => intro st; rfl
  | cons s ss ih =>
      intro st
      simp only [scanSegments, snapVisRows, List.map_cons, List.flatten_cons,
        scanVis_append, segVisRows]
      rw [scanBlocks_eq_scanVis]
      exact ih _

theorem emitSeg_nil {ρ : Type} (ofs limit rc : Nat) :
    emitSeg ([] : List ρ) ofs limit rc = [] := by
  unfold emitSeg
  simp

theorem emitSeg_cons_skip {ρ : Type} (r : ρ) (vr : List ρ) (ofs limit rc : Nat) :
    emitSeg (r :: vr) (ofs + 1) limit rc = emitSeg vr ofs limit rc := by
  unfold emitSeg
  simp only [List.drop_succ_cons, List.length_cons]
  by_cases hl : limit = 0
  · subst hl
    rw [if_pos rfl, if_pos rfl,
      List.take_of_length_le (by rw [List.length_drop]; omega),
      List.take_of_length_le (by rw [List.length_drop]; omega)]
  · simp [hl]

theorem emitSeg_cons_emit {ρ : Type} (r : ρ) (vr : List ρ) (limit rc : Nat)
    (h : limit = 0 ∨ rc < limit) :
    emitSeg (r :: vr) 0 limit rc = r :: emitSeg vr 0 limit (rc + 1) := by
  unfold emitSeg
  rcases h with h | h
  · subst h
    simp [List.take_succ_cons]
  · have h0 : limit ≠ 0 := by omega
    simp only [if_neg h0, List.drop_zero]
    have he : limit - rc = (limit - (rc + 1)) + 1 := by omega
    rw [he, List.take_succ_cons]

theorem emitSeg_last {ρ : Type} (r : ρ) (vr : List ρ) (limit rc : Nat)
    (h1 : limit ≠ 0) (h2 : rc + 1 = limit) :
    emitSeg (r :: vr) 0 limit rc = [r] := by
  unfold emitSeg
  simp only [if_neg h1, List.drop_zero]
  have he : limit - rc = 1 := by omega
  rw [he]
  rfl

/-- Full characterization of the shared scan loop on an all-visible row list:
starting not-yet-stopped with `rc` rows already emitted, it consumes the
offset budget, emits exactly `emitSeg rows ofs limit rc`, writes them with
the per-file rotation bookkeeping, and stops exactly when the total limit is
reached. -/
theorem scanVis_spec {ρ : Type} (k limit : Nat) (rows : List ρ) :
    ∀ (ofs rc : Nat) (files : List (List ρ)), (limit = 0 ∨ rc < limit) →
      scanVis k limit rows ⟨ofs, rc, files, false⟩ =
        { offset := ofs - rows.length
          rowCount := rc + (emitSeg rows ofs limit rc).length
          files := filesSim k rc files (emitSeg rows ofs limit rc)
          stop := decide (limit ≠ 0) && decide (rc + (emitSeg rows ofs limit rc).length = limit) } := by
  induction rows with
  | nil =>
      intro ofs rc files h
      simp only [scanVis, emitSeg_nil, List.length_nil, Nat.add_zero, filesSim,
        Nat.sub_zero]
      rcases h with h | h
      · subst h; simp
      · simp [Nat.ne_of_lt h]
  | cons r rs ih =>
      intro ofs rc files h
      simp only [scanVis]
      by_cases hofs : 0 < ofs
      · have hrow : scanRow k limit true r ⟨ofs, rc, files, false⟩
            = ⟨ofs - 1, rc, files, false⟩ := by
          simp [scanRow, hofs]
        rw [hrow, ih (ofs - 1) rc files h]
        obtain ⟨o, rfl⟩ : ∃ o, ofs = o + 1 :=
          ⟨ofs - 1, (Nat.succ_pred_eq_of_pos hofs).symm⟩
        simp only [Nat.add_sub_cancel, emitSeg_cons_skip, List.length_cons]
        have ho : o + 1 - (rs.length + 1) = o - rs.length := by omega
        rw [ho]
      · have hofs0 : ofs = 0 := by omega
        subst hofs0
        have hrow : scanRow k limit true r ⟨0, rc, files, false⟩
            = ⟨0, rc + 1, pushRow k files rc r,
                decide (limit ≠ 0) && decide (rc + 1 = limit)⟩ := by
          simp [scanRow, emitRow]
        rw [hrow]
        by_cases hstop : limit ≠ 0 ∧ rc + 1 = limit
        · have hb : (decide (limit ≠ 0) && decide (rc + 1 = limit)) = true := by
            simp [hstop.1, hstop.2]
          rw [hb, scanVis_stopped k limit rs _ rfl,
            emitSeg_last r rs limit rc hstop.1 hstop.2]
          simp only [List.length_cons, List.length_nil, filesSim, Nat.zero_sub,
            Nat.zero_add]
          rw [hb]
        · have hlim0 : limit ≠ 0 → rc + 1 ≠ limit := by
            intro h1 h2; exact hstop ⟨h1, h2⟩
          have hb : (decide (limit ≠ 0) && decide (rc + 1 = limit)) = false := by
            by_cases h1 : limit = 0
            · simp [h1]
            · simp [h1, hlim0 h1]
          rw [hb]
          have hnext : limit = 0 ∨ rc + 1 < limit := by
            rcases h with h1 | h1
            · exact Or.inl h1
            · right
              have := hlim0 (by omega)
              omega
          rw [ih 0 (rc + 1) (pushRow k files rc r) hnext,
            emitSeg_cons_emit r rs limit rc h]
          simp only [List.length_cons, filesSim, Nat.zero_sub]
          have h1 : rc + 1 + (emitSeg rs 0 limit (rc + 1)).length
              = rc + ((emitSeg rs 0 limit (rc + 1)).length + 1) := by omega
          rw [h1]

theorem appendLast_flatten {ρ : Type} (files : List (List ρ)) (r : ρ) :
    (appendLast files r).flatten = files.flatten ++ [r] := by
  induction files with
  | nil => simp [appendLast]
  | cons f fs ih =>
      cases fs with
      | nil => simp [appendLast]
      | cons g gs =>
          simp only [appendLast, List.flatten_cons, ih, List.append_assoc]

theorem pushRow_flatten {ρ : Type} (k rc : Nat) (files : List (List ρ)) (r : ρ) :
    (pushRow k files rc r).flatten = files.flatten ++ [r] := by
  unfold pushRow
  by_cases hc : rotateCond k rc = true
  · rw [if_pos hc, appendLast_flatten]
    simp
  · rw [if_neg hc, appendLast_flatten]

theorem filesSim_flatten {ρ : Type} (k : Nat) (e : List ρ) :
    ∀ (rc : Nat) (files : List (List ρ)),
      (filesSim k rc files e).flatten = files.flatten ++ e := by
  induction e with
  | nil => intro rc files; simp [filesSim]
  | cons r rs ih =>
      intro rc files
      simp only [filesSim, ih, pushRow_flatten, List.append_assoc,
        List.singleton_append]

theorem filesSim_append {ρ : Type} (k : Nat) (xs ys : List ρ) :
    ∀ (rc : Nat) (files : List (List ρ)),
      filesSim k rc files (xs ++ ys)
        = filesSim k (rc + xs.length) (filesSim k rc files xs) ys := by
  induction xs with
  | nil => intro rc files; simp [filesSim]
  | cons x xs ih =>
      intro rc files
      simp only [List.cons_append, filesSim, List.length_cons, List.append_eq]
      rw [ih, (by omega : rc + (xs.length + 1) = rc + 1 + xs.length)]

/-- Characterization of the shared scan: running the whole loop equals new
offset budget, the emitted row list, its file split and the limit flag, all
as functions of the visible rows of the snapshot. -/
theorem runScanFrom_spec {ρ : Type} (k limit ofs : Nat) (seed : List (List ρ))
    (segs : List (ScanSegment ρ)) :
    runScanFrom k limit ofs seed segs =
      { offset := ofs - (snapVisRows segs).length
        rowCount := (emittedOf (snapVisRows segs) ofs limit).length
        files := filesSim k 0 seed (emittedOf (snapVisRows segs) ofs limit)
        stop := decide (limit ≠ 0)
          && decide ((emittedOf (snapVisRows segs) ofs limit).length = limit) } := by
  unfold runScanFrom emittedOf
  rw [scanSegments_eq_scanVis, scanVis_spec k limit _ ofs 0 seed (by omega)]
  simp

theorem emittedOf_length {ρ : Type} (v : List ρ) (o l : Nat) :
    (emittedOf v o l).length
      = min (v.length - o) (if l = 0 then v.length - o else l) := by
  unfold emittedOf emitSeg
  by_cases hl : l = 0 <;>
    simp [hl, List.length_take, List.length_drop] <;> omega

theorem appendLast_eq_concat {ρ : Type} (pre : List (List ρ)) (cur : List ρ) (r : ρ) :
    appendLast (pre ++ [cur]) r = pre ++ [cur ++ [r]] := by
  induction pre with
  | nil => rfl
  | cons f fs ih =>
      cases fs with
      | nil => rfl
      | cons g gs =>
          simp only [List.cons_append, appendLast, List.append_eq]
          rw [← List.cons_append, ih]
          simp

theorem appendLast_cons_of_ne {ρ : Type} (f : List ρ) (fs : List (List ρ)) (r : ρ)
    (h : fs ≠ []) :
    appendLast (f :: fs) r = f :: appendLast fs r := by
  cases fs with
  | nil => exact absurd rfl h
  | cons g gs => rfl

/-- How many files an export producing `n` rows creates under per-file limit
`k > 0`: the base file always exists; a fresh `.part` file is opened before
rows `k+1`, `2k+1`, .... -/
def fileCount (k n : Nat) : Nat := if n = 0 then 1 else (n - 1) / k + 1

/-- The rows landing in the `i`-th produced file (0-based): rows `i*k` to
`i*k + k - 1` of the emitted sequence. -/
def chunkAt {ρ : Type} (k : Nat) (e : List ρ) (i : Nat) : List ρ :=
  (e.drop (i * k)).take k

theorem mul_pred_div (k q : Nat) (hk : 0 < k) (hq : 0 < q) :
    (k * q - 1) / k = q - 1 := by
  obtain ⟨q', rfl⟩ : ∃ t, q = t + 1 := ⟨q - 1, by omega⟩
  have h3 : k * (q' + 1) - 1 = k * q' + (k - 1) := by
    rw [Nat.mul_succ]; omega
  rw [h3, Nat.mul_add_div hk, Nat.div_eq_of_lt (show k - 1 < k by omega)]
  omega

theorem pred_div_eq (k n : Nat) (hk : k ≠ 0) (h : n % k ≠ 0) :
    (n - 1) / k = n / k := by
  have h1 := Nat.div_add_mod n k
  have h2 : n % k < k := Nat.mod_lt _ (Nat.pos_of_ne_zero hk)
  have h3 : n - 1 = k * (n / k) + (n % k - 1) := by omega
  rw [h3, Nat.mul_add_div (Nat.pos_of_ne_zero hk),
    Nat.div_eq_of_lt (show n % k - 1 < k by omega)]
  omega

theorem chunkAt_append_stable {ρ : Type} (k : Nat) (e : List ρ) (r : ρ) (i : Nat)
    (h : (i + 1) * k ≤ e.length) :
    chunkAt k (e ++ [r]) i = chunkAt k e i := by
  have hs : (i + 1) * k = i * k + k := Nat.succ_mul i k
  have h' : i * k + k ≤ e.length := by omega
  unfold chunkAt
  rw [List.drop_append_of_le_length (by omega),
    List.take_append_of_le_length (by rw [List.length_drop]; omega)]

theorem filesSim_closed {ρ : Type} (k : Nat) (hk : k ≠ 0) (e : List ρ) :
    filesSim k 0 [[]] e = (List.range (fileCount k e.length)).map (chunkAt k e) := by
  induction e using List.reverseRecOn with
  | nil =>
      have h1 : List.range 1 = [0] := by simp [List.range_succ]
      rw [show fileCount k ([] : List ρ).length = 1 from rfl, h1]
      simp [filesSim, chunkAt]
  | append_singleton e r ih =>
      rw [filesSim_append k e [r] 0 [[]], ih]
      simp only [filesSim, Nat.zero_add]
      by_cases hrot : rotateCond k e.length = true
      · -- the rotation fires: e.length is a positive multiple of k
        have hfacts : 0 < e.length ∧ e.length % k = 0 := by
          simpa [rotateCond, hk] using hrot
        obtain ⟨hn, hmod⟩ := hfacts
        have hdm := Nat.div_add_mod e.length k
        have hkn : k ≤ e.length := by
          by_contra hlt
          rw [Nat.mod_eq_of_lt (by omega)] at hmod
          omega
        have hq : 0 < e.length / k := Nat.div_pos hkn (Nat.pos_of_ne_zero hk)
        have hnq : e.length = k * (e.length / k) := by omega
        have hpred : (e.length - 1) / k = e.length / k - 1 := by
          have hmp := mul_pred_div k (e.length / k) (Nat.pos_of_ne_zero hk) hq
          rw [← hnq] at hmp
          exact hmp
        have hfc : fileCount k e.length = e.length / k := by
          unfold fileCount
          rw [if_neg (by omega), hpred]
          omega
        have hfc1 : fileCount k (e ++ [r]).length = e.length / k + 1 := by
          unfold fileCount
          rw [List.length_append, List.length_singleton,
            if_neg (by omega), Nat.add_sub_cancel]
        rw [pushRow, if_pos hrot, hfc, hfc1,
          appendLast_eq_concat, List.range_succ, List.map_append]
        simp only [List.map_cons, List.map_nil, List.nil_append]
        have hmap : (List.range (e.length / k)).map (chunkAt k (e ++ [r]))
            = (List.range (e.length / k)).map (chunkAt k e) := by
          refine List.map_congr_left ?_
          intro i hi
          rw [List.mem_range] at hi
          refine chunkAt_append_stable k e r i ?_
          calc (i + 1) * k ≤ (e.length / k) * k :=
                Nat.mul_le_mul_right k (by omega)
            _ ≤ e.length := Nat.div_mul_le_self _ _
        rw [hmap]
        have hlast : chunkAt k (e ++ [r]) (e.length / k) = [r] := by
          unfold chunkAt
          have hm : e.length / k * k = e.length := by
            rw [Nat.mul_comm]; omega
          rw [hm, List.drop_left, List.take_of_length_le (by simp; omega)]
        rw [hlast]
      · -- no rotation: e is empty or e.length is not a multiple of k
        have hcase : e.length = 0 ∨ e.length % k ≠ 0 := by
          by_contra hc
          push_neg at hc
          exact hrot (by simp [rotateCond, hk, hc.2]; omega)
        rcases hcase with hzero | hmod
        · obtain rfl : e = [] := List.length_eq_zero.mp hzero
          rw [pushRow, if_neg hrot]
          have h0 : fileCount k ([] : List ρ).length = 1 := rfl
          have h1 : fileCount k (([] : List ρ) ++ [r]).length = 1 := by
            simp [fileCount]
          have h2 : List.range 1 = [0] := by simp [List.range_succ]
          rw [h0, h1, h2]
          simp only [List.map_cons, List.map_nil]
          show appendLast [chunkAt k [] 0] r = [chunkAt k ([] ++ [r]) 0]
          unfold chunkAt
          simp only [List.drop_nil, List.take_nil, List.drop_zero,
            List.nil_append, Nat.zero_mul]
          rw [List.take_of_length_le (by simp; omega)]
          rfl
        · have hn : 0 < e.length := by
            rcases Nat.eq_zero_or_pos e.length with h0 | h0
            · rw [h0] at hmod; simp at hmod
            · exact h0
          have hdm := Nat.div_add_mod e.length k
          have hmlt : e.length % k < k := Nat.mod_lt _ (Nat.pos_of_ne_zero hk)
          have hfc : fileCount k e.length = e.length / k + 1 := by
            unfold fileCount
            rw [if_neg (by omega), pred_div_eq k _ hk hmod]
          have hfc1 : fileCount k (e ++ [r]).length = e.length / k + 1 := by
            unfold fileCount
            rw [List.length_append, List.length_singleton,
              if_neg (by omega), Nat.add_sub_cancel]
          rw [pushRow, if_neg hrot, hfc, hfc1, List.range_succ, List.map_append,
            List.map_append]
          simp only [List.map_cons, List.map_nil]
          rw [appendLast_eq_concat]
          have hmap : (List.range (e.length / k)).map (chunkAt k (e ++ [r]))
              = (List.range (e.length / k)).map (chunkAt k e) := by
            refine List.map_congr_left ?_
            intro i hi
            rw [List.mem_range] at hi
            refine chunkAt_append_stable k e r i ?_
            calc (i + 1) * k ≤ (e.length / k) * k :=
                  Nat.mul_le_mul_right k (by omega)
              _ ≤ e.length := Nat.div_mul_le_self _ _
          rw [hmap]
          have hm1 : e.length / k * k ≤ e.length := Nat.div_mul_le_self _ _
          have hm2 : e.length - e.length / k * k = e.length % k := by
            rw [Nat.mul_comm]; omega
          have hlast : chunkAt k (e ++ [r]) (e.length / k)
              = chunkAt k e (e.length / k) ++ [r] := by
            unfold chunkAt
            rw [List.drop_append_of_le_length hm1,
              List.take_of_length_le (by simp [List.length_drop]; omega),
              List.take_of_length_le (by rw [List.length_drop]; omega)]
          rw [hlast]

/-- Prepend already-written content (the CSV header) to the first file. -/
def consHead {ρ : Type} (c : List ρ) : List (List ρ) → List (List ρ)
  | [] => [c]
  | f :: fs => (c ++ f) :: fs

theorem filesSim_seed {ρ : Type} (k : Nat) (c : List ρ) (e : List ρ) :
    ∀ (rc : Nat) (f : List ρ) (fs : List (List ρ)),
      filesSim k rc ((c ++ f) :: fs) e = consHead c (filesSim k rc (f :: fs) e) := by
  induction e with
  | nil => intro rc f fs; simp [filesSim, consHead]
  | cons r rs ih =>
      intro rc f fs
      simp only [filesSim, pushRow]
      by_cases hrot : rotateCond k rc = true
      · rw [if_pos hrot, if_pos hrot, List.cons_append, List.cons_append,
          appendLast_cons_of_ne _ _ _ (by simp),
          appendLast_cons_of_ne _ _ _ (by simp)]
        exact ih (rc + 1) f (appendLast (fs ++ [[]]) r)
      · rw [if_neg hrot, if_neg hrot]
        cases fs with
        | nil =>
            show filesSim k (rc + 1) [c ++ f ++ [r]] rs
              = consHead c (filesSim k (rc + 1) [f ++ [r]] rs)
            rw [List.append_assoc]
            exact ih (rc + 1) (f ++ [r]) []
        | cons g gs =>
            show filesSim k (rc + 1) ((c ++ f) :: appendLast (g :: gs) r) rs
              = consHead c (filesSim k (rc + 1) (f :: appendLast (g :: gs) r) rs)
            exact ih (rc + 1) f (appendLast (g :: gs) r)

/-- Mutable state of the PARQUET export (`ExportToPARQUET`): offset budget,
row counter, per-file contents, the deferred-rotation flag
`switch_to_new_file`, and whether `consume_block` returned `false`
(row limit reached, `goto label_return`). -/
structure PqState (ρ : Type) where
  offset : Nat
  rowCount : Nat
  files : List (List ρ)
  switchFile : Bool
  stop : Bool

/-- Append a whole record batch to the currently open (= last) file
(`WriteRecordBatch`). -/
def appendLastAll {ρ : Type} : List (List ρ) → List ρ → List (List ρ)
  | [], b => [b]
  | [f], b => [f ++ b]
  | f :: g :: fs, b => f :: appendLastAll (g :: fs) b

/-- Flush the pending batch (`block_rows_for_output`): nothing on an empty
batch (`continue`); otherwise rotate first if the deferred flag is set, write
the batch, record the next deferred-rotation flag, and stop if the total
limit was just reached (`return false`). -/
def pqFlush {ρ : Type} (limit : Nat) (st : PqState ρ) (batch : List ρ)
    (needSwitch : Bool) : PqState ρ :=
  if batch.isEmpty then st
  else
    { st with
      files := appendLastAll
        (if st.switchFile then st.files ++ [[]] else st.files) batch
      switchFile := needSwitch
      stop := decide (st.rowCount = limit) }

/-- The double row loop of `consume_block`: collect visible post-offset rows
into a batch; a batch ends when the per-file limit divides the row counter
(flush with a pending rotation), when the total limit is reached (flush and
stop), or at the end of the block (flush without a pending rotation). -/
def pqRows {ρ : Type} (k limit : Nat) (visible : Nat → Bool) :
    Nat → List ρ → List ρ → PqState ρ → PqState ρ
  | _, [], batch, st => if st.stop then st else pqFlush limit st batch false
  | pos, r :: rs, batch, st =>
    if st.stop then st
    else if !visible pos then pqRows k limit visible (pos + 1) rs batch st
    else if 0 < st.offset then
      pqRows k limit visible (pos + 1) rs batch { st with offset := st.offset - 1 }
    else
      if decide (k ≠ 0) && decide ((st.rowCount + 1) % k = 0) then
        pqRows k limit visible (pos + 1) rs []
          (pqFlush limit { st with rowCount := st.rowCount + 1 } (batch ++ [r]) true)
      else if st.rowCount + 1 = limit then
        pqRows k limit visible (pos + 1) rs []
          (pqFlush limit { st with rowCount := st.rowCount + 1 } (batch ++ [r]) false)
      else
        pqRows k limit visible (pos + 1) rs (batch ++ [r])
          { st with rowCount := st.rowCount + 1 }

/-- Block loop of `ExportToPARQUET`; a `false` return of `consume_block`
jumps out of all loops. -/
def pqBlocks {ρ : Type} (k limit : Nat) (visible : Nat → Bool) :
    List (ScanBlock ρ) → PqState ρ → PqState ρ
  | [], st => st
  | b :: bs, st =>
      if st.stop then st
      else pqBlocks k limit visible bs (pqRows k limit visible b.segOff b.rows [] st)

/-- Segment loop of `ExportToPARQUET`. -/
def pqSegments {ρ : Type} (k limit : Nat) :
    List (ScanSegment ρ) → PqState ρ → PqState ρ
  | [], st => st
  | s :: ss, st =>
      if st.stop then st
      else pqSegments k limit ss (pqBlocks k limit s.visible s.blocks st)

/-- Run the PARQUET scan: base file opened by `init_file_stream_writer`,
counters zero, no pending rotation. -/
def runPq {ρ : Type} (segs : List (ScanSegment ρ)) (k limit offset : Nat) :
    PqState ρ :=
  pqSegments k limit segs ⟨offset, 0, [[]], false, false⟩

theorem appendLast_ne_nil {ρ : Type} (files : List (List ρ)) (r : ρ) :
    appendLast files r ≠ [] := by
  cases files with
  | nil => simp [appendLast]
  | cons f fs => cases fs <;> simp [appendLast]

theorem appendLastAll_cons {ρ : Type} (files : List (List ρ)) (r : ρ) (rs : List ρ) :
    appendLastAll files (r :: rs) = appendLastAll (appendLast files r) rs := by
  induction files with
  | nil => simp [appendLastAll, appendLast]
  | cons f fs ih =>
      cases fs with
      | nil => simp [appendLastAll, appendLast]
      | cons g gs =>
          obtain ⟨h0, t0, hsh⟩ := List.exists_cons_of_ne_nil (appendLast_ne_nil (g :: gs) r)
          show f :: appendLastAll (g :: gs) (r :: rs)
            = appendLastAll (f :: appendLast (g :: gs) r) rs
          rw [ih, hsh]
          rfl

theorem appendLastAll_nil_batch {ρ : Type} (f : List ρ) (fs : List (List ρ)) :
    appendLastAll (f :: fs) [] = f :: fs := by
  induction fs generalizing f with
  | nil => simp [appendLastAll]
  | cons g gs ih =>
      show f :: appendLastAll (g :: gs) [] = f :: g :: gs
      rw [ih]

theorem filesSim_ne_nil {ρ : Type} (k : Nat) (e : List ρ) :
    ∀ (rc : Nat) (files : List (List ρ)), files ≠ [] → filesSim k rc files e ≠ [] := by
  induction e with
  | nil => intro rc files h; simpa [filesSim] using h
  | cons r rs ih =>
      intro rc files h
      simp only [filesSim]
      exact ih (rc + 1) _ (appendLast_ne_nil _ _)

/-- Writing a nonempty batch in one shot equals writing its rows one by one,
provided no rotation point falls strictly inside the batch. -/
theorem flushFiles {ρ : Type} (k : Nat) (batch : List ρ) :
    ∀ (prev : List ρ), batch ≠ [] →
      (∀ j, 0 < j → j < batch.length → ¬(k ≠ 0 ∧ (prev.length + j) % k = 0)) →
      appendLastAll
          (if rotateCond k prev.length then filesSim k 0 [[]] prev ++ [[]]
           else filesSim k 0 [[]] prev) batch
        = filesSim k 0 [[]] (prev ++ batch) := by
  induction batch with
  | nil => intro prev hb _; exact absurd rfl hb
  | cons r rs ih =>
      intro prev _ hno
      rw [appendLastAll_cons]
      have hstep : appendLast
          (if rotateCond k prev.length then filesSim k 0 [[]] prev ++ [[]]
           else filesSim k 0 [[]] prev) r
          = filesSim k 0 [[]] (prev ++ [r]) := by
        rw [filesSim_append k prev [r] 0 [[]]]
        show _ = filesSim k (0 + prev.length + 1)
          (pushRow k (filesSim k 0 [[]] prev) (0 + prev.length) r) []
        simp only [filesSim, pushRow, Nat.zero_add]
      rw [hstep]
      cases rs with
      | nil =>
          obtain ⟨g, gs, hgs⟩ := List.exists_cons_of_ne_nil
            (filesSim_ne_nil k (prev ++ [r]) 0 [[]] (by simp))
          rw [hgs, appendLastAll_nil_batch]
      | cons r2 rs2 =>
          have hrot1 : rotateCond k (prev ++ [r]).length = false := by
            have hn1 := hno 1 (by omega) (by simp)
            simp only [rotateCond, List.length_append, List.length_singleton]
            by_cases hk : k = 0
            · simp [hk]
            · have : (prev.length + 1) % k ≠ 0 := fun hc => hn1 ⟨hk, hc⟩
              simp [this]
          have := ih (prev ++ [r]) (by simp)
            (by
              intro j hj hjl hcontra
              refine hno (j + 1) (by omega) (by simp at hjl ⊢; omega) ?_
              obtain ⟨hk, hc⟩ := hcontra
              refine ⟨hk, ?_⟩
              rw [List.length_append, List.length_singleton] at hc
              rw [(by omega : prev.length + (j + 1) = prev.length + 1 + j)]
              exact hc)
          rw [hrot1] at this
          simp only [Bool.false_eq_true, if_false] at this
          rw [this, List.append_assoc]
          rfl

theorem rotateCond_false_of (k n : Nat) (h : ¬(k ≠ 0 ∧ n % k = 0)) :
    rotateCond k n = false := by
  unfold rotateCond
  by_cases hk : k = 0
  · simp [hk]
  · have hm : n % k ≠ 0 := fun hc => h ⟨hk, hc⟩
    simp [hm]

theorem rotateCond_true_of (k n : Nat) (hk : k ≠ 0) (hn : 0 < n) (h : n % k = 0) :
    rotateCond k n = true := by
  simp [rotateCond, hk, hn, h]

theorem stopF_eq (limit n : Nat) (hn : 0 < n) :
    decide (n = limit) = (decide (limit ≠ 0) && decide (n = limit)) := by
  by_cases hl : limit = 0
  · subst hl
    simp
    omega
  · simp [hl]

theorem pqRows_stopped {ρ : Type} (k limit : Nat) (visible : Nat → Bool)
    (rows : List ρ) :
    ∀ (pos : Nat) (batch : List ρ) (st : PqState ρ), st.stop = true →
      pqRows k limit visible pos rows batch st = st := by
  induction rows with
  | nil => intro pos batch st h; simp [pqRows, h]
  | cons r rs ih => intro pos batch st h; simp [pqRows, h]

/-- Expected final state of `consume_block` runs: `done` is every row emitted
so far (flushed batches included), `vlen` the number of visible rows scanned. -/
def pqOut {ρ : Type} (k limit ofs vlen : Nat) (done : List ρ) : PqState ρ :=
  ⟨ofs - vlen, done.length, filesSim k 0 [[]] done, rotateCond k done.length,
    decide (limit ≠ 0) && decide (done.length = limit)⟩

theorem pqMk_eq {ρ : Type} (o1 o2 r1 r2 : Nat) (f1 f2 : List (List ρ))
    (s1 s2 t1 t2 : Bool) (ho : o1 = o2) (hr : r1 = r2) (hf : f1 = f2)
    (hs : s1 = s2) (ht : t1 = t2) :
    (⟨o1, r1, f1, s1, t1⟩ : PqState ρ) = ⟨o2, r2, f2, s2, t2⟩ := by
  subst ho; subst hr; subst hf; subst hs; subst ht; rfl

theorem pqOut_congr {ρ : Type} (k limit ofs v1 v2 : Nat) (d1 d2 : List ρ)
    (hd : d1 = d2) (hv : ofs - v1 = ofs - v2) :
    pqOut k limit ofs v1 d1 = pqOut k limit ofs v2 d2 := by
  subst hd
  unfold pqOut
  rw [hv]

/-- Full characterization of the `consume_block` row loops: starting from a
consistent mid-scan state (`prev` rows flushed, `batch` rows pending, no
rotation boundary strictly inside the pending batch), processing a block's
rows flushes everything and emits exactly the same rows as the shared scan
driver would. -/
theorem pqRows_spec {ρ : Type} (k limit : Nat) (visible : Nat → Bool)
    (rows : List ρ) :
    ∀ (pos ofs : Nat) (prev batch : List ρ),
      (limit = 0 ∨ prev.length + batch.length < limit) →
      (∀ j, 0 < j → j ≤ batch.length → ¬(k ≠ 0 ∧ (prev.length + j) % k = 0)) →
      (0 < ofs → batch = []) →
      pqRows k limit visible pos rows batch
          ⟨ofs, prev.length + batch.length, filesSim k 0 [[]] prev,
            rotateCond k prev.length, false⟩
        = pqOut k limit ofs (visRowsGo visible pos rows).length
            (prev ++ batch ++ emitSeg (visRowsGo visible pos rows) ofs limit
              (prev.length + batch.length)) := by
  induction rows with
  | nil =>
      intro pos ofs prev batch hlim hno hofs
      show pqFlush limit _ batch false = _
      cases batch with
      | nil =>
          show (⟨ofs, prev.length + 0, filesSim k 0 [[]] prev,
            rotateCond k prev.length, false⟩ : PqState ρ) = _
          unfold pqOut
          simp only [visRowsGo, List.length_nil, Nat.sub_zero, emitSeg_nil,
            List.append_nil, Nat.add_zero]
          have hstop : (decide (limit ≠ 0) && decide (prev.length = limit)) = false := by
            rcases hlim with h | h
            · simp [h]
            · simp only [List.length_nil, Nat.add_zero] at h
              simp [Nat.ne_of_lt h]
          rw [hstop]
      | cons b bs =>
          unfold pqFlush
          rw [if_neg (by simp)]
          unfold pqOut
          simp only [visRowsGo, List.length_nil, Nat.sub_zero, emitSeg_nil,
            List.append_nil]
          have hfl := flushFiles k (b :: bs) prev (by simp)
            (fun j hj hjl => hno j hj (by omega))
          have hlen : (prev ++ b :: bs).length = prev.length + (b :: bs).length := by
            simp
          have hrot2 : rotateCond k (prev ++ b :: bs).length = false := by
            rw [hlen]
            exact rotateCond_false_of _ _ (hno (b :: bs).length (by simp) (by omega))
          have hstop : decide (prev.length + (b :: bs).length = limit)
              = (decide (limit ≠ 0) && decide ((prev ++ b :: bs).length = limit)) := by
            rw [hlen]
            exact stopF_eq limit _ (by simp)
          rw [hfl, hrot2, hstop, hlen]
  | cons r rs ih =>
      intro pos ofs prev batch hlim hno hofs
      cases hv : visible pos with
      | false =>
          have hstep : pqRows k limit visible pos (r :: rs) batch
              ⟨ofs, prev.length + batch.length, filesSim k 0 [[]] prev,
                rotateCond k prev.length, false⟩
            = pqRows k limit visible (pos + 1) rs batch
              ⟨ofs, prev.length + batch.length, filesSim k 0 [[]] prev,
                rotateCond k prev.length, false⟩ := by
            simp [pqRows, hv]
          rw [hstep, ih (pos + 1) ofs prev batch hlim hno hofs]
          simp [visRowsGo, hv]
      | true =>
          by_cases hofs2 : 0 < ofs
          · have hbe : batch = [] := hofs hofs2
            subst hbe
            obtain ⟨o, rfl⟩ : ∃ o, ofs = o + 1 :=
              ⟨ofs - 1, (Nat.succ_pred_eq_of_pos hofs2).symm⟩
            have ih2 := ih (pos + 1) o prev [] hlim hno (fun _ => rfl)
            simp only [List.length_nil, Nat.add_zero, List.append_nil] at ih2 ⊢
            have hstep : pqRows k limit visible pos (r :: rs) []
                ⟨o + 1, prev.length, filesSim k 0 [[]] prev,
                  rotateCond k prev.length, false⟩
              = pqRows k limit visible (pos + 1) rs []
                ⟨o, prev.length, filesSim k 0 [[]] prev,
                  rotateCond k prev.length, false⟩ := by
              simp [pqRows, hv]
            rw [hstep, ih2]
            unfold pqOut
            simp only [visRowsGo, hv, if_true, List.length_cons, emitSeg_cons_skip]
            have hsub : o + 1 - ((visRowsGo visible (pos + 1) rs).length + 1)
                = o - (visRowsGo visible (pos + 1) rs).length := by omega
            rw [hsub]
          · have hofs0 : ofs = 0 := by omega
            subst hofs0
            by_cases hkc : k ≠ 0 ∧ (prev.length + batch.length + 1) % k = 0
            · -- per-file boundary: flush the batch with a pending rotation
              have hvr : visRowsGo visible pos (r :: rs)
                  = r :: visRowsGo visible (pos + 1) rs := by
                simp [visRowsGo, hv]
              have hstep : pqRows k limit visible pos (r :: rs) batch
                  ⟨0, prev.length + batch.length, filesSim k 0 [[]] prev,
                    rotateCond k prev.length, false⟩
                = pqRows k limit visible (pos + 1) rs []
                  (pqFlush limit
                    ⟨0, prev.length + batch.length + 1, filesSim k 0 [[]] prev,
                      rotateCond k prev.length, false⟩ (batch ++ [r]) true) := by
                simp [pqRows, hv, hkc.1, hkc.2]
              have hfl := flushFiles k (batch ++ [r]) prev (by simp)
                (fun j hj hjl => hno j hj (by simp at hjl; omega))
              have hflush : pqFlush limit
                  ⟨0, prev.length + batch.length + 1, filesSim k 0 [[]] prev,
                    rotateCond k prev.length, false⟩ (batch ++ [r]) true
                = ⟨0, prev.length + batch.length + 1,
                    filesSim k 0 [[]] (prev ++ (batch ++ [r])), true,
                    decide (prev.length + batch.length + 1 = limit)⟩ := by
                unfold pqFlush
                rw [if_neg (by simp), hfl]
              rw [hstep, hvr, hflush]
              have hL : (prev ++ batch ++ [r]).length
                  = prev.length + batch.length + 1 := by
                simp only [List.length_append, List.length_cons, List.length_nil]
                all_goals omega
              by_cases hstop : limit ≠ 0 ∧ prev.length + batch.length + 1 = limit
              · have hsb : decide (prev.length + batch.length + 1 = limit) = true := by
                  simp [hstop.2]
                rw [hsb, pqRows_stopped k limit visible rs (pos + 1) [] _ rfl,
                  emitSeg_last r (visRowsGo visible (pos + 1) rs) limit _
                    hstop.1 hstop.2]
                unfold pqOut
                apply pqMk_eq
                · omega
                · simp only [List.length_append, List.length_cons, List.length_nil]
                  all_goals omega
                · rw [List.append_assoc]
                · rw [hL]
                  exact (rotateCond_true_of _ _ hkc.1 (by omega) hkc.2).symm
                · rw [hL]
                  simp [hstop.1, hstop.2]
              · have hsb : decide (prev.length + batch.length + 1 = limit) = false := by
                  rcases hlim with h | h
                  · simp [h]
                  · simp only [decide_eq_false_iff_not]
                    intro hc
                    exact hstop ⟨by omega, hc⟩
                rw [hsb]
                have hlen2 : (prev ++ (batch ++ [r])).length
                    = prev.length + batch.length + 1 := by
                  simp only [List.length_append, List.length_cons, List.length_nil]
                  all_goals omega
                have hlim2 : limit = 0 ∨ (prev ++ (batch ++ [r])).length + ([] : List ρ).length < limit := by
                  rw [hlen2]
                  rcases hlim with h | h
                  · exact Or.inl h
                  · right
                    simp only [List.length_nil, Nat.add_zero]
                    have hne : prev.length + batch.length + 1 ≠ limit := by
                      intro hc
                      exact hstop ⟨by omega, hc⟩
                    omega
                have ih2 := ih (pos + 1) 0 (prev ++ (batch ++ [r])) [] hlim2
                  (by intro j hj hjl; simp at hjl; omega)
                  (fun hc => rfl)
                simp only [List.length_nil, Nat.add_zero, List.append_nil] at ih2
                rw [hlen2] at ih2
                rw [rotateCond_true_of k (prev.length + batch.length + 1)
                  hkc.1 (by omega) hkc.2] at ih2
                rw [ih2, emitSeg_cons_emit r _ limit _ hlim]
                apply pqOut_congr
                · simp [List.append_assoc]
                · simp only [List.length_cons]
                  omega
            · by_cases hlimit : prev.length + batch.length + 1 = limit
              · -- total limit hit away from a per-file boundary: flush and stop
                have hvr : visRowsGo visible pos (r :: rs)
                    = r :: visRowsGo visible (pos + 1) rs := by
                  simp [visRowsGo, hv]
                have hkb : (decide (k ≠ 0)
                    && decide ((prev.length + batch.length + 1) % k = 0)) = false := by
                  by_cases hk : k = 0
                  · simp [hk]
                  · have hm : (prev.length + batch.length + 1) % k ≠ 0 :=
                      fun hc => hkc ⟨hk, hc⟩
                    simp [hm]
                have hstep : pqRows k limit visible pos (r :: rs) batch
                    ⟨0, prev.length + batch.length, filesSim k 0 [[]] prev,
                      rotateCond k prev.length, false⟩
                  = pqRows k limit visible (pos + 1) rs []
                    (pqFlush limit
                      ⟨0, prev.length + batch.length + 1, filesSim k 0 [[]] prev,
                        rotateCond k prev.length, false⟩ (batch ++ [r]) false) := by
                  simp [pqRows, hv, hkb]
                  rw [if_neg hkc, if_pos hlimit]
                have hfl := flushFiles k (batch ++ [r]) prev (by simp)
                  (fun j hj hjl => hno j hj (by simp at hjl; omega))
                have hflush : pqFlush limit
                    ⟨0, prev.length + batch.length + 1, filesSim k 0 [[]] prev,
                      rotateCond k prev.length, false⟩ (batch ++ [r]) false
                  = ⟨0, prev.length + batch.length + 1,
                      filesSim k 0 [[]] (prev ++ (batch ++ [r])), false,
                      decide (prev.length + batch.length + 1 = limit)⟩ := by
                  unfold pqFlush
                  rw [if_neg (by simp), hfl]
                rw [hstep, hvr, hflush]
                have hL : (prev ++ batch ++ [r]).length
                    = prev.length + batch.length + 1 := by
                  simp only [List.length_append, List.length_cons, List.length_nil]
                  all_goals omega
                have hsb : decide (prev.length + batch.length + 1 = limit) = true := by
                  simp [hlimit]
                rw [hsb, pqRows_stopped k limit visible rs (pos + 1) [] _ rfl,
                  emitSeg_last r (visRowsGo visible (pos + 1) rs) limit _
                    (by omega) hlimit]
                unfold pqOut
                apply pqMk_eq
                · omega
                · simp only [List.length_append, List.length_cons, List.length_nil]
                  all_goals omega
                · rw [List.append_assoc]
                · rw [hL]
                  exact (rotateCond_false_of _ _ hkc).symm
                · rw [hL]
                  simp [hlimit]
                  omega
              · -- ordinary emitted row: extend the pending batch
                have hvr : visRowsGo visible pos (r :: rs)
                    = r :: visRowsGo visible (pos + 1) rs := by
                  simp [visRowsGo, hv]
                have hkb : (decide (k ≠ 0)
                    && decide ((prev.length + batch.length + 1) % k = 0)) = false := by
                  by_cases hk : k = 0
                  · simp [hk]
                  · have hm : (prev.length + batch.length + 1) % k ≠ 0 :=
                      fun hc => hkc ⟨hk, hc⟩
                    simp [hm]
                have hstep : pqRows k limit visible pos (r :: rs) batch
                    ⟨0, prev.length + batch.length, filesSim k 0 [[]] prev,
                      rotateCond k prev.length, false⟩
                  = pqRows k limit visible (pos + 1) rs (batch ++ [r])
                    ⟨0, prev.length + batch.length + 1, filesSim k 0 [[]] prev,
                      rotateCond k prev.length, false⟩ := by
                  simp [pqRows, hv, hkb]
                  rw [if_neg hkc, if_neg hlimit]
                rw [hstep, hvr]
                have hlim2 : limit = 0 ∨ prev.length + (batch ++ [r]).length < limit := by
                  rcases hlim with h | h
                  · exact Or.inl h
                  · right
                    simp only [List.length_append, List.length_cons, List.length_nil]
                    all_goals omega
                have hno2 : ∀ j, 0 < j → j ≤ (batch ++ [r]).length →
                    ¬(k ≠ 0 ∧ (prev.length + j) % k = 0) := by
                  intro j hj hjl
                  simp only [List.length_append, List.length_cons, List.length_nil] at hjl
                  by_cases hje : j = batch.length + 1
                  · subst hje
                    intro hc
                    exact hkc ⟨hc.1, by
                      rw [(by omega : prev.length + batch.length + 1
                        = prev.length + (batch.length + 1))]
                      exact hc.2⟩
                  · exact hno j hj (by omega)
                have ih2 := ih (pos + 1) 0 prev (batch ++ [r]) hlim2 hno2
                  (fun hc => absurd hc (by omega))
                simp only [List.length_append, List.length_cons, List.length_nil,
                  Nat.zero_add] at ih2
                rw [(by omega : prev.length + (batch.length + 1)
                  = prev.length + batch.length + 1)] at ih2
                rw [ih2, emitSeg_cons_emit r _ limit _ hlim]
                apply pqOut_congr
                · simp [List.append_assoc]
                · simp only [List.length_cons]
                  omega

theorem emitSeg_length {ρ : Type} (v : List ρ) (ofs limit rc : Nat) :
    (emitSeg v ofs limit rc).length
      = min (v.length - ofs) (if limit = 0 then v.length else limit - rc) := by
  unfold emitSeg
  by_cases hl : limit = 0 <;>
    simp [hl, List.length_take, List.length_drop, Nat.min_comm]

theorem emitSeg_stop {ρ : Type} (v : List ρ) (ofs limit : Nat) (hl : limit ≠ 0) :
    emitSeg v ofs limit limit = [] := by
  unfold emitSeg
  rw [if_neg hl, Nat.sub_self, List.take_zero]

theorem emitSeg_zero {ρ : Type} (v : List ρ) (ofs rc : Nat) :
    emitSeg v ofs 0 rc = v.drop ofs := by
  unfold emitSeg
  rw [if_pos rfl, List.take_of_length_le (by rw [List.length_drop]; omega)]

theorem emitSeg_pos {ρ : Type} (v : List ρ) (ofs limit rc : Nat) (hl : limit ≠ 0) :
    emitSeg v ofs limit rc = (v.drop ofs).take (limit - rc) := by
  unfold emitSeg
  rw [if_neg hl]

theorem emitSeg_append {ρ : Type} (a b : List ρ) (ofs limit rc : Nat) :
    emitSeg (a ++ b) ofs limit rc
      = emitSeg a ofs limit rc
        ++ emitSeg b (ofs - a.length) limit
            (rc + (emitSeg a ofs limit rc).length) := by
  by_cases hl : limit = 0
  · subst hl
    rw [emitSeg_zero, emitSeg_zero, emitSeg_zero, List.drop_append_eq_append_drop]
  · rw [emitSeg_pos _ _ _ _ hl, emitSeg_pos _ _ _ _ hl, emitSeg_pos _ _ _ _ hl,
      List.drop_append_eq_append_drop, List.take_append_eq_append_take]
    congr 1
    rw [List.length_take, List.length_drop]
    congr 1
    omega

theorem pqBlocks_spec {ρ : Type} (k limit : Nat) (visible : Nat → Bool)
    (bs : List (ScanBlock ρ)) :
    ∀ (ofs : Nat) (prev : List ρ),
      (limit = 0 ∨ prev.length ≤ limit) →
      (limit ≠ 0 → prev.length = limit → ofs = 0) →
      pqBlocks k limit visible bs
          ⟨ofs, prev.length, filesSim k 0 [[]] prev, rotateCond k prev.length,
            decide (limit ≠ 0) && decide (prev.length = limit)⟩
        = ⟨ofs - ((bs.map (fun b => visRowsGo visible b.segOff b.rows)).flatten).length,
            (prev ++ emitSeg ((bs.map (fun b => visRowsGo visible b.segOff b.rows)).flatten)
              ofs limit prev.length).length,
            filesSim k 0 [[]]
              (prev ++ emitSeg ((bs.map (fun b => visRowsGo visible b.segOff b.rows)).flatten)
                ofs limit prev.length),
            rotateCond k
              (prev ++ emitSeg ((bs.map (fun b => visRowsGo visible b.segOff b.rows)).flatten)
                ofs limit prev.length).length,
            decide (limit ≠ 0)
              && decide ((prev ++ emitSeg ((bs.map (fun b => visRowsGo visible b.segOff b.rows)).flatten)
                  ofs limit prev.length).length = limit)⟩ := by
  induction bs with
  | nil =>
      intro ofs prev hlim hofs
      simp only [pqBlocks, List.map_nil, List.flatten_nil, emitSeg_nil,
        List.append_nil, List.length_nil, Nat.sub_zero]
  | cons b bs ih =>
      intro ofs prev hlim hofs
      by_cases hstop : limit ≠ 0 ∧ prev.length = limit
      · have hsb : (decide (limit ≠ 0) && decide (prev.length = limit)) = true := by
          simp [hstop.1, hstop.2]
        have hofs0 : ofs = 0 := hofs hstop.1 hstop.2
        subst hofs0
        rw [show pqBlocks k limit visible (b :: bs)
            ⟨0, prev.length, filesSim k 0 [[]] prev, rotateCond k prev.length,
              decide (limit ≠ 0) && decide (prev.length = limit)⟩
          = ⟨0, prev.length, filesSim k 0 [[]] prev, rotateCond k prev.length,
              decide (limit ≠ 0) && decide (prev.length = limit)⟩ by
          simp only [pqBlocks]
          rw [if_pos (by rw [hsb])]]
        rw [hstop.2, emitSeg_stop _ _ _ hstop.1]
        simp only [List.append_nil, Nat.zero_sub]
        rw [← hstop.2]
        simp
      · have hsb : (decide (limit ≠ 0) && decide (prev.length = limit)) = false := by
          by_cases h1 : limit = 0
          · simp [h1]
          · have : prev.length ≠ limit := fun hc => hstop ⟨h1, hc⟩
            simp [h1, this]
        have hstep : pqBlocks k limit visible (b :: bs)
            ⟨ofs, prev.length, filesSim k 0 [[]] prev, rotateCond k prev.length,
              decide (limit ≠ 0) && decide (prev.length = limit)⟩
          = pqBlocks k limit visible bs
            (pqRows k limit visible b.segOff b.rows []
              ⟨ofs, prev.length, filesSim k 0 [[]] prev, rotateCond k prev.length,
                false⟩) := by
          simp only [pqBlocks]
          rw [if_neg (by rw [hsb]; simp), hsb]
        rw [hstep]
        have hlim1 : limit = 0 ∨ prev.length + ([] : List ρ).length < limit := by
          by_cases h1 : limit = 0
          · exact Or.inl h1
          · right
            simp only [List.length_nil, Nat.add_zero]
            rcases hlim with h | h
            · exact absurd h h1
            · have h2 : prev.length ≠ limit := fun hc => hstop ⟨h1, hc⟩
              omega
        have hspec := pqRows_spec k limit visible b.rows b.segOff ofs prev []
          hlim1 (by
            intro j hj hjl hc
            simp only [List.length_nil] at hjl
            omega)
          (fun _ => rfl)
        simp only [List.length_nil, Nat.add_zero, List.append_nil] at hspec
        rw [hspec]
        unfold pqOut
        set vb := visRowsGo visible b.segOff b.rows with hvb
        set eb := emitSeg vb ofs limit prev.length with heb
        have hlen1 : (prev ++ eb).length = prev.length + eb.length := by simp
        have hlim2 : limit = 0 ∨ (prev ++ eb).length ≤ limit := by
          rcases hlim1 with h | h
          · exact Or.inl h
          · simp only [List.length_nil, Nat.add_zero] at h
            right
            rw [hlen1, heb, emitSeg_length, if_neg (show ¬limit = 0 by omega)]
            omega
        have hofs2 : limit ≠ 0 → (prev ++ eb).length = limit → ofs - vb.length = 0 := by
          intro h1 h2
          rw [hlen1] at h2
          have hle : 0 < eb.length := by
            rcases hlim1 with h | h
            · exact absurd h h1
            · simp only [List.length_nil, Nat.add_zero] at h
              omega
          rw [heb, emitSeg_length, lt_min_iff] at hle
          omega
        have hrec := ih (ofs - vb.length) (prev ++ eb) hlim2 hofs2
        rw [hrec]
        have hdone : (prev ++ eb) ++ emitSeg
              ((bs.map (fun b => visRowsGo visible b.segOff b.rows)).flatten)
              (ofs - vb.length) limit (prev ++ eb).length
            = prev ++ emitSeg (((b :: bs).map
                (fun b => visRowsGo visible b.segOff b.rows)).flatten) ofs limit
                prev.length := by
          simp only [List.map_cons, List.flatten_cons, ← hvb]
          rw [emitSeg_append vb _ ofs limit prev.length, ← heb, hlen1,
            List.append_assoc]
        rw [hdone]
        simp only [List.map_cons, List.flatten_cons, ← hvb, List.length_append]
        rw [(by omega : ofs - vb.length
            - ((bs.map (fun b => visRowsGo visible b.segOff b.rows)).flatten).length
          = ofs - (vb.length
            + ((bs.map (fun b => visRowsGo visible b.segOff b.rows)).flatten).length))]

theorem pqSegments_spec {ρ : Type} (k limit : Nat) (segs : List (ScanSegment ρ)) :
    ∀ (ofs : Nat) (prev : List ρ),
      (limit = 0 ∨ prev.length ≤ limit) →
      (limit ≠ 0 → prev.length = limit → ofs = 0) →
      pqSegments k limit segs
          ⟨ofs, prev.length, filesSim k 0 [[]] prev, rotateCond k prev.length,
            decide (limit ≠ 0) && decide (prev.length = limit)⟩
        = ⟨ofs - (snapVisRows segs).length,
            (prev ++ emitSeg (snapVisRows segs) ofs limit prev.length).length,
            filesSim k 0 [[]] (prev ++ emitSeg (snapVisRows segs) ofs limit prev.length),
            rotateCond k
              (prev ++ emitSeg (snapVisRows segs) ofs limit prev.length).length,
            decide (limit ≠ 0)
              && decide ((prev ++ emitSeg (snapVisRows segs) ofs limit
                  prev.length).length = limit)⟩ := by
  induction segs with
  | nil =>
      intro ofs prev hlim hofs
      simp only [pqSegments, snapVisRows, List.map_nil, List.flatten_nil,
        emitSeg_nil, List.append_nil, List.length_nil, Nat.sub_zero]
  | cons s ss ih =>
      intro ofs prev hlim hofs
      by_cases hstop : limit ≠ 0 ∧ prev.length = limit
      · have hsb : (decide (limit ≠ 0) && decide (prev.length = limit)) = true := by
          simp [hstop.1, hstop.2]
        have hofs0 : ofs = 0 := hofs hstop.1 hstop.2
        subst hofs0
        rw [show pqSegments k limit (s :: ss)
            ⟨0, prev.length, filesSim k 0 [[]] prev, rotateCond k prev.length,
              decide (limit ≠ 0) && decide (prev.length = limit)⟩
          = ⟨0, prev.length, filesSim k 0 [[]] prev, rotateCond k prev.length,
              decide (limit ≠ 0) && decide (prev.length = limit)⟩ by
          simp only [pqSegments]
          rw [if_pos (by rw [hsb])]]
        rw [hstop.2, emitSeg_stop _ _ _ hstop.1]
        simp only [List.append_nil, Nat.zero_sub]
        rw [← hstop.2]
        simp
      · have hsb : (decide (limit ≠ 0) && decide (prev.length = limit)) = false := by
          by_cases h1 : limit = 0
          · simp [h1]
          · have : prev.length ≠ limit := fun hc => hstop ⟨h1, hc⟩
            simp [h1, this]
        have hstep : pqSegments k limit (s :: ss)
            ⟨ofs, prev.length, filesSim k 0 [[]] prev, rotateCond k prev.length,
              decide (limit ≠ 0) && decide (prev.length = limit)⟩
          = pqSegments k limit ss
            (pqBlocks k limit s.visible s.blocks
              ⟨ofs, prev.length, filesSim k 0 [[]] prev, rotateCond k prev.length,
                decide (limit ≠ 0) && decide (prev.length = limit)⟩) := by
          simp only [pqSegments]
          rw [if_neg (by rw [hsb]; simp)]
        rw [hstep, pqBlocks_spec k limit s.visible s.blocks ofs prev
          (by rcases hlim with h | h; exact Or.inl h; exact Or.inr h)
          (fun h1 h2 => absurd ⟨h1, h2⟩ hstop)]
        set vb := ((s.blocks.map (fun b => visRowsGo s.visible b.segOff b.rows)).flatten)
          with hvb
        set eb := emitSeg vb ofs limit prev.length with heb
        have hlen1 : (prev ++ eb).length = prev.length + eb.length := by simp
        have hlim1 : limit = 0 ∨ prev.length < limit := by
          by_cases h1 : limit = 0
          · exact Or.inl h1
          · right
            rcases hlim with h | h
            · exact absurd h h1
            · have h2 : prev.length ≠ limit := fun hc => hstop ⟨h1, hc⟩
              omega
        have hlim2 : limit = 0 ∨ (prev ++ eb).length ≤ limit := by
          rcases hlim1 with h | h
          · exact Or.inl h
          · right
            rw [hlen1, heb, emitSeg_length, if_neg (show ¬limit = 0 by omega)]
            omega
        have hofs2 : limit ≠ 0 → (prev ++ eb).length = limit → ofs - vb.length = 0 := by
          intro h1 h2
          rw [hlen1] at h2
          have hle : 0 < eb.length := by
            rcases hlim1 with h | h
            · exact absurd h h1
            · omega
          rw [heb, emitSeg_length, lt_min_iff] at hle
          omega
        have hrec := ih (ofs - vb.length) (prev ++ eb) hlim2 hofs2
        rw [hrec]
        have hdone : (prev ++ eb) ++ emitSeg (snapVisRows ss)
              (ofs - vb.length) limit (prev ++ eb).length
            = prev ++ emitSeg (snapVisRows (s :: ss)) ofs limit prev.length := by
          simp only [snapVisRows, List.map_cons, List.flatten_cons, segVisRows,
            ← hvb]
          rw [emitSeg_append vb _ ofs limit prev.length, ← heb, hlen1,
            List.append_assoc]
        rw [hdone]
        simp only [snapVisRows, List.map_cons, List.flatten_cons, segVisRows,
          ← hvb, List.length_append]
        rw [(by omega : ofs - vb.length - ((ss.map segVisRows).flatten).length
          = ofs - (vb.length + ((ss.map segVisRows).flatten).length))]

/-- Characterization of the whole PARQUET scan. -/
theorem runPq_spec {ρ : Type} (segs : List (ScanSegment ρ)) (k limit ofs : Nat) :
    runPq segs k limit ofs
      = ⟨ofs - (snapVisRows segs).length,
          (emittedOf (snapVisRows segs) ofs limit).length,
          filesSim k 0 [[]] (emittedOf (snapVisRows segs) ofs limit),
          rotateCond k (emittedOf (snapVisRows segs) ofs limit).length,
          decide (limit ≠ 0)
            && decide ((emittedOf (snapVisRows segs) ofs limit).length = limit)⟩ := by
  unfold runPq emittedOf
  have h := pqSegments_spec k limit segs ofs []
    (by rcases Nat.eq_zero_or_pos limit with h | h
        · exact Or.inl h
        · right; simp)
    (by intro h1 h2; simp at h2; omega)
  simp only [List.length_nil, List.nil_append] at h
  rw [show (decide (limit ≠ 0) && decide (0 = limit)) = false from ?_] at h
  · rw [show rotateCond k 0 = false from rfl] at h
    exact h
  · by_cases h1 : limit = 0
    · simp [h1]
    · simp [h1]
      omega

theorem pqSegments_stopped {ρ : Type} (k l : Nat) (segs : List (ScanSegment ρ))
    (st : PqState ρ) (h : st.stop = true) :
    pqSegments k l segs st = st := by
  cases segs with
  | nil => rfl
  | cons s ss => simp [pqSegments, h]

/-- Name of the `i`-th produced output file: the base path for the first
file, `path.part1`, `path.part2`, ... afterwards. -/
def exportFileName (path : String) (i : Nat) : String :=
  if i = 0 then path else path ++ ".part" ++ toString i

theorem filesSim_k_zero {ρ : Type} (e : List ρ) :
    ∀ (rc : Nat) (pre : List (List ρ)) (cur : List ρ),
      filesSim 0 rc (pre ++ [cur]) e = pre ++ [cur ++ e] := by
  induction e with
  | nil => intro rc pre cur; simp [filesSim]
  | cons r rs ih =>
      intro rc pre cur
      have hr : rotateCond 0 rc = false := by simp [rotateCond]
      simp only [filesSim, pushRow, hr, Bool.false_eq_true, if_false]
      rw [appendLast_eq_concat, ih]
      simp

theorem chunkAt_length_full {ρ : Type} (k : Nat) (e : List ρ) (i : Nat)
    (h : (i + 1) * k ≤ e.length) :
    (chunkAt k e i).length = k := by
  unfold chunkAt
  rw [List.length_take, List.length_drop]
  have hs : (i + 1) * k = i * k + k := Nat.succ_mul i k
  omega

theorem fileCount_pos (k n : Nat) : ∃ m, fileCount k n = m + 1 := by
  unfold fileCount
  by_cases h : n = 0
  · exact ⟨0, by simp [h]⟩
  · exact ⟨(n - 1) / k, by simp [h]⟩

theorem filesSim_head {ρ : Type} (k : Nat) (hk : k ≠ 0) (e : List ρ) :
    (filesSim k 0 [[]] e).head? = some (e.take k) := by
  rw [filesSim_closed k hk]
  obtain ⟨m, hm⟩ := fileCount_pos k e.length
  rw [hm, List.range_succ_eq_map]
  simp [chunkAt]

theorem filesSim_length_ceil {ρ : Type} (k : Nat) (hk : k ≠ 0) (e : List ρ)
    (he : e ≠ []) :
    (filesSim k 0 [[]] e).length = (e.length + k - 1) / k := by
  rw [filesSim_closed k hk, List.length_map, List.length_range]
  unfold fileCount
  have hn : e.length ≠ 0 := fun hc => he (List.length_eq_zero.mp hc)
  rw [if_neg hn]
  have h1 : e.length + k - 1 = (e.length - 1) + k := by omega
  rw [h1, Nat.add_div_right _ (Nat.pos_of_ne_zero hk)]

theorem filesSim_full_files {ρ : Type} (k : Nat) (hk : k ≠ 0) (e : List ρ)
    (i : Nat) (h : i + 1 < (filesSim k 0 [[]] e).length) :
    ((filesSim k 0 [[]] e)[i]?).map List.length = some k := by
  rw [filesSim_closed k hk] at h ⊢
  rw [List.length_map, List.length_range] at h
  rw [List.getElem?_map, List.getElem?_range (by omega)]
  show some (chunkAt k e i).length = some k
  rw [chunkAt_length_full]
  have hn : e.length ≠ 0 := by
    intro hc
    unfold fileCount at h
    rw [if_pos hc] at h
    omega
  unfold fileCount at h
  rw [if_neg hn] at h
  have h2 : i < (e.length - 1) / k := by omega
  have h3 : (i + 1) * k ≤ ((e.length - 1) / k) * k :=
    Nat.mul_le_mul_right k (by omega)
  have h4 : ((e.length - 1) / k) * k ≤ e.length - 1 := Nat.div_mul_le_self _ _
  omega

/-- C1: for every export over a snapshot with `R` physically-visible rows,
offset `o` and row limit `l` (`0` = unbounded), the emitted row count is
`min (max (R - o) 0) (if l = 0 then R - o else l)` (`R - o` is truncated
subtraction, so the `max … 0` is built in); and once the limit fires, the
remaining segment/block/row loops of both the shared CSV/JSONL/FVECS driver
and the PARQUET driver change nothing — no further row is emitted. -/
theorem export_row_count_conservation {ρ : Type} (segs : List (ScanSegment ρ))
    (k l o : Nat) :
    (runScan segs k l o).rowCount
        = min ((snapVisRows segs).length - o)
            (if l = 0 then (snapVisRows segs).length - o else l)
    ∧ (runPq segs k l o).rowCount
        = min ((snapVisRows segs).length - o)
            (if l = 0 then (snapVisRows segs).length - o else l)
    ∧ (∀ st : ScanState ρ, st.stop = true → scanSegments k l segs st = st)
    ∧ (∀ st : PqState ρ, st.stop = true → pqSegments k l segs st = st) := by
  refine ⟨?_, ?_, ?_, ?_⟩
  · rw [runScan, runScanFrom_spec]
    exact emittedOf_length _ _ _
  · rw [runPq_spec]
    exact emittedOf_length _ _ _
  · intro st h
    rw [scanSegments_eq_scanVis]
    exact scanVis_stopped k l _ st h
  · intro st h
    exact pqSegments_stopped k l segs st h

/-- C2: visibility is tested first — an invisible row is a complete no-op on
the scan state, so it never consumes offset budget and never counts toward
the total or per-file limits; consequently the final offset budget is
`o - R` with `R` the number of visible rows, and the emitted rows (all files
concatenated, for the shared driver and for the PARQUET driver alike) are
exactly the visible rows past the offset, truncated by the limit, in scan
order. -/
theorem export_visibility_filtering {ρ : Type} (segs : List (ScanSegment ρ))
    (k l o : Nat) :
    (∀ (st : ScanState ρ) (r : ρ), scanRow k l false r st = st)
    ∧ (runScan segs k l o).offset = o - (snapVisRows segs).length
    ∧ (runScan segs k l o).files.flatten = emittedOf (snapVisRows segs) o l
    ∧ (runPq segs k l o).offset = o - (snapVisRows segs).length
    ∧ (runPq segs k l o).files.flatten = emittedOf (snapVisRows segs) o l := by
  refine ⟨fun st r => scanRow_invisible k l r st, ?_, ?_, ?_, ?_⟩
  · rw [runScan, runScanFrom_spec]
  · rw [runScan, runScanFrom_spec]
    simp [filesSim_flatten]
  · rw [runPq_spec]
  · rw [runPq_spec]
    simp [filesSim_flatten]

/-- C3 counterexample: an export that emits `n = 0` rows with per-file limit
`k = 1` still produces one (empty) base file, while the claimed formula
`ceil(n/k) = (n + k - 1) / k` gives `0` files. -/
theorem file_splitting_zero_rows_counterexample :
    (runScan ([] : List (ScanSegment Unit)) 1 0 0).rowCount = 0
    ∧ (runScan ([] : List (ScanSegment Unit)) 1 0 0).files.length = 1
    ∧ (0 + 1 - 1) / 1 = 0 := ⟨rfl, rfl, rfl⟩

/-- C3 (amended): both drivers split the emitted rows `e` with the same
bookkeeping `filesSim`; for a positive per-file limit `k` the produced files
hold `ceil(n/k)` files when `n ≥ 1` (a single empty base file remains when
`n = 0`, the amendment), the first `k` emitted rows land in the base file,
every file but the last holds exactly `k` rows, the concatenation of all
files is exactly the emitted row sequence (so an exact multiple of `k` never
leaves a trailing empty file), `k = 0` produces exactly one file, and the
`i`-th file is named `path` for `i = 0` and `path.partN` for `i = N ≥ 1`. -/
theorem export_file_splitting {ρ : Type} (segs : List (ScanSegment ρ))
    (k l o : Nat) :
    (runScan segs k l o).files = filesSim k 0 [[]] (emittedOf (snapVisRows segs) o l)
    ∧ (runPq segs k l o).files = filesSim k 0 [[]] (emittedOf (snapVisRows segs) o l)
    ∧ (∀ e : List ρ, k ≠ 0 →
        (filesSim k 0 [[]] e).flatten = e
        ∧ (filesSim k 0 [[]] e).head? = some (e.take k)
        ∧ (e = [] → filesSim k 0 [[]] e = [[]])
        ∧ (e ≠ [] → (filesSim k 0 [[]] e).length = (e.length + k - 1) / k)
        ∧ (∀ i, i + 1 < (filesSim k 0 [[]] e).length →
            ((filesSim k 0 [[]] e)[i]?).map List.length = some k))
    ∧ (∀ e : List ρ, k = 0 → filesSim k 0 [[]] e = [e])
    ∧ (∀ (path : String) (i : Nat),
        exportFileName path 0 = path
        ∧ (0 < i → exportFileName path i = path ++ ".part" ++ toString i)) := by
  refine ⟨?_, ?_, ?_, ?_, ?_⟩
  · rw [runScan, runScanFrom_spec]
  · rw [runPq_spec]
  · intro e hk
    refine ⟨?_, filesSim_head k hk e, ?_, filesSim_length_ceil k hk e,
      filesSim_full_files k hk e⟩
    · rw [filesSim_flatten]
      simp
    · intro he
      subst he
      rfl
  · intro e hk
    subst hk
    exact filesSim_k_zero e 0 [] []
  · intro path i
    exact ⟨if_pos rfl, fun hi => if_neg (by omega)⟩

/-- A tiny concrete snapshot: one segment, one block with three rows, all
visible. -/
def exSegs1 : List (ScanSegment Nat) :=
  [⟨fun _ => true, [⟨0, [10, 20, 30]⟩]⟩]

/-- Witness for C1 at a concrete input: three visible rows, offset 1,
limit 2 emit `min (3-1) 2 = 2` rows, and a stopped state is left untouched
by both drivers. -/
theorem export_row_count_conservation_witness :
    (runScan exSegs1 0 2 1).rowCount = min (3 - 1) 2
    ∧ scanSegments 0 2 exSegs1 ⟨0, 2, [[]], true⟩ = ⟨0, 2, [[]], true⟩
    ∧ pqSegments 0 2 exSegs1 ⟨0, 2, [[]], false, true⟩
        = ⟨0, 2, [[]], false, true⟩ := by
  have h := export_row_count_conservation exSegs1 0 2 1
  refine ⟨?_, h.2.2.1 _ rfl, h.2.2.2 _ rfl⟩
  rw [h.1]
  rfl

/-- Witness for the amended C3 at a concrete input: five emitted rows with
per-file limit 2 produce `ceil(5/2) = 3` files of sizes 2, 2, 1, the first
holding the first two rows. -/
theorem export_file_splitting_witness :
    (filesSim 2 0 [[]] [0, 1, 2, 3, 4]).length = (5 + 2 - 1) / 2
    ∧ (filesSim 2 0 [[]] [0, 1, 2, 3, 4]).head? = some [0, 1]
    ∧ (filesSim 0 0 [[]] [0, 1, 2]).length = 1 := by
  have h := (export_file_splitting ([] : List (ScanSegment Nat)) 2 0 0).2.2.1
    [0, 1, 2, 3, 4] (by decide)
  have h0 := (export_file_splitting ([] : List (ScanSegment Nat)) 0 0 0).2.2.2.1
    [0, 1, 2] rfl
  refine ⟨h.2.2.2.1 (by decide), ?_, by simp [h0]⟩
  rw [h.2.1]
  rfl

/-- Element types of embedding/sparse columns (`EmbeddingDataType`). -/
inductive EmbeddingDataType
  | elemBit | elemInt8 | elemInt16 | elemInt32 | elemInt64
  | elemFloat | elemDouble | elemUInt8 | elemFloat16 | elemBFloat16
  | elemInvalid
deriving DecidableEq, Repr

/-- Logical column types (`LogicalType`), with the per-type info
(`EmbeddingInfo` element type and dimension, `SparseInfo` index and data
types) carried inline. -/
inductive DataType
  | kBoolean | kTinyInt | kSmallInt | kInteger | kBigInt
  | kFloat16 | kBFloat16 | kFloat | kDouble
  | kDate | kTime | kDateTime | kTimestamp | kVarchar
  | kSparse (indexType : EmbeddingDataType) (dataType : EmbeddingDataType)
  | kEmbedding (elem : EmbeddingDataType) (dim : Nat)
  | kMultiVector (elem : EmbeddingDataType) (dim : Nat)
  | kTensor (elem : EmbeddingDataType) (dim : Nat)
  | kTensorArray (elem : EmbeddingDataType) (dim : Nat)
  | kRowID | kInterval | kHugeInt | kDecimal | kArray | kTuple
  | kPoint | kLine | kLineSeg | kBox | kCircle | kUuid | kMixed
  | kNull | kMissing | kEmptyArray | kInvalid
deriving DecidableEq, Repr

/-- The arrow physical types produced by `GetArrowType`. -/
inductive ArrowType
  | boolean | int8 | int16 | int32 | int64 | uint8
  | float16 | float32 | float64
  | date32 | time32Second | timestampSecond | utf8
  | list (elem : ArrowType)
  | fixedSizeList (elem : ArrowType) (n : Nat)
  | structT (fields : List (String × ArrowType))

/-- The sparse `index` list type (`sparse_info->IndexType()` switch in
`GetArrowType`); the default branch is `UnrecoverableError`. -/
def sparseIndexArrowType : EmbeddingDataType → Option ArrowType
  | .elemInt8 => some (.list .int8)
  | .elemInt16 => some (.list .int16)
  | .elemInt32 => some (.list .int32)
  | .elemInt64 => some (.list .int64)
  | _ => none

/-- The sparse `value` list type (`sparse_info->DataType()` switch in
`GetArrowType`): `some none` means the value field is omitted (single-bit
element type); `none` means the default `UnrecoverableError` branch. -/
def sparseValueArrowType : EmbeddingDataType → Option (Option ArrowType)
  | .elemBit => some none
  | .elemInt8 => some (some (.list .int8))
  | .elemInt16 => some (some (.list .int16))
  | .elemInt32 => some (some (.list .int32))
  | .elemInt64 => some (some (.list .int64))
  | .elemFloat => some (some (.list .float32))
  | .elemDouble => some (some (.list .float64))
  | .elemUInt8 => some (some (.list .uint8))
  | .elemFloat16 => some (some (.list .float16))
  | .elemBFloat16 => some (some (.list .float32))
  | .elemInvalid => none

/-- The element type of the embedding family (`embedding_info->Type()` switch
in `GetArrowType`). -/
def arrowEmbeddingElemType : EmbeddingDataType → Option ArrowType
  | .elemBit => some .boolean
  | .elemInt8 => some .int8
  | .elemInt16 => some .int16
  | .elemInt32 => some .int32
  | .elemInt64 => some .int64
  | .elemFloat => some .float32
  | .elemDouble => some .float64
  | .elemUInt8 => some .uint8
  | .elemFloat16 => some .float16
  | .elemBFloat16 => some .float32
  | .elemInvalid => none

/-- `PhysicalExport::GetArrowType`: lower a logical column type to the arrow
schema field type; `none` models the `UnrecoverableError` branches. -/
def getArrowType : DataType → Option ArrowType
  | .kBoolean => some .boolean
  | .kTinyInt => some .int8
  | .kSmallInt => some .int16
  | .kInteger => some .int32
  | .kBigInt => some .int64
  | .kFloat16 => some .float16
  | .kBFloat16 => some .float32
  | .kFloat => some .float32
  | .kDouble => some .float64
  | .kDate => some .date32
  | .kTime => some .time32Second
  | .kDateTime => some .timestampSecond
  | .kTimestamp => some .timestampSecond
  | .kVarchar => some .utf8
  | .kSparse it dt =>
      match sparseIndexArrowType it with
      | none => none
      | some indexType =>
        match sparseValueArrowType dt with
        | none => none
        | some valueType =>
          some (.structT ([("index", indexType)]
            ++ (match valueType with
                | some v => [("value", v)]
                | none => [])))
  | .kEmbedding e d => (arrowEmbeddingElemType e).map (fun t => .fixedSizeList t d)
  | .kMultiVector e d =>
      (arrowEmbeddingElemType e).map (fun t => .list (.fixedSizeList t d))
  | .kTensor e d =>
      (arrowEmbeddingElemType e).map (fun t => .list (.fixedSizeList t d))
  | .kTensorArray e d =>
      (arrowEmbeddingElemType e).map (fun t => .list (.list (.fixedSizeList t d)))
  | .kRowID | .kInterval | .kHugeInt | .kDecimal | .kArray | .kTuple
  | .kPoint | .kLine | .kLineSeg | .kBox | .kCircle | .kUuid | .kMixed
  | .kNull | .kMissing | .kEmptyArray | .kInvalid => none

/-- Arrow array builders created by `BuildArrowArray`. -/
inductive ArrowBuilder
  | booleanB | int8B | int16B | int32B | int64B
  | halfFloatB | floatB | doubleB | uint8B
  | date32B | time32B | timestampB | stringB
  | listB (child : ArrowBuilder)
  | fixedSizeListB (child : ArrowBuilder) (dim : Nat)
  | structB (ty : ArrowType) (fields : List ArrowBuilder)

/-- A builder's arrow type (`builder->type()`). -/
def builderType : ArrowBuilder → ArrowType
  | .booleanB => .boolean
  | .int8B => .int8
  | .int16B => .int16
  | .int32B => .int32
  | .int64B => .int64
  | .halfFloatB => .float16
  | .floatB => .float32
  | .doubleB => .float64
  | .uint8B => .uint8
  | .date32B => .date32
  | .time32B => .time32Second
  | .timestampB => .timestampSecond
  | .stringB => .utf8
  | .listB c => .list (builderType c)
  | .fixedSizeListB c d => .fixedSizeList (builderType c) d
  | .structB t _ => t

/-- The sparse `index` list builder (`sparse_info->IndexType()` switch in
`BuildArrowArray`). -/
def sparseIndexBuilder : EmbeddingDataType → Option ArrowBuilder
  | .elemInt8 => some (.listB .int8B)
  | .elemInt16 => some (.listB .int16B)
  | .elemInt32 => some (.listB .int32B)
  | .elemInt64 => some (.listB .int64B)
  | _ => none

/-- The sparse `value` list builder (`sparse_info->DataType()` switch in
`BuildArrowArray`): `some none` = the builder stays null (single-bit). -/
def sparseValueBuilder : EmbeddingDataType → Option (Option ArrowBuilder)
  | .elemBit => some none
  | .elemInt8 => some (some (.listB .int8B))
  | .elemInt16 => some (some (.listB .int16B))
  | .elemInt32 => some (some (.listB .int32B))
  | .elemInt64 => some (some (.listB .int64B))
  | .elemFloat => some (some (.listB .floatB))
  | .elemDouble => some (some (.listB .doubleB))
  | .elemUInt8 => some (some (.listB .uint8B))
  | .elemFloat16 => some (some (.listB .halfFloatB))
  | .elemBFloat16 => some (some (.listB .floatB))
  | .elemInvalid => none

/-- The embedding element builder (`embedding_info->Type()` switch in
`BuildArrowArray`). -/
def embeddingElemBuilder : EmbeddingDataType → Option ArrowBuilder
  | .elemBit => some .booleanB
  | .elemInt8 => some .int8B
  | .elemInt16 => some .int16B
  | .elemInt32 => some .int32B
  | .elemInt64 => some .int64B
  | .elemFloat => some .floatB
  | .elemDouble => some .doubleB
  | .elemUInt8 => some .uint8B
  | .elemFloat16 => some .halfFloatB
  | .elemBFloat16 => some .floatB
  | .elemInvalid => none

/-- The builder-construction half of `PhysicalExport::BuildArrowArray`.
In the sparse case the source computes
`arrow::struct_({field("index", index_builder->type()), field("value", value_builder->type())})`
unconditionally (line 1007): when the sparse element type is single-bit the
value builder is still the null pointer there, so the call dereferences null
— modelled as `none` — even though the subsequent `field_builders` push is
guarded on a non-null value builder. -/
def mkArrayBuilder : DataType → Option ArrowBuilder
  | .kBoolean => some .booleanB
  | .kTinyInt => some .int8B
  | .kSmallInt => some .int16B
  | .kInteger => some .int32B
  | .kBigInt => some .int64B
  | .kFloat => some .floatB
  | .kDouble => some .doubleB
  | .kFloat16 => some .halfFloatB
  | .kBFloat16 => some .floatB
  | .kDate => some .date32B
  | .kTime => some .time32B
  | .kDateTime => some .timestampB
  | .kTimestamp => some .timestampB
  | .kVarchar => some .stringB
  | .kSparse it dt =>
      match sparseIndexBuilder it with
      | none => none
      | some indexBuilder =>
        match sparseValueBuilder dt with
        | none => none
        | some valueBuilder =>
          match valueBuilder with
          | none => none
          | some vb =>
            some (.structB
              (ArrowType.structT
                [("index", builderType indexBuilder),
                  ("value", builderType vb)])
              ([indexBuilder] ++ [vb]))
  | .kEmbedding e d => (embeddingElemBuilder e).map (fun c => .fixedSizeListB c d)
  | .kMultiVector e d =>
      (embeddingElemBuilder e).map (fun c => .listB (.fixedSizeListB c d))
  | .kTensor e d =>
      (embeddingElemBuilder e).map (fun c => .listB (.fixedSizeListB c d))
  | .kTensorArray e d =>
      (embeddingElemBuilder e).map (fun c => .listB (.listB (.fixedSizeListB c d)))
  | .kRowID | .kInterval | .kHugeInt | .kDecimal | .kArray | .kTuple
  | .kPoint | .kLine | .kLineSeg | .kBox | .kCircle | .kUuid | .kMixed
  | .kNull | .kMissing | .kEmptyArray | .kInvalid => none

/-- C4 counterexample: a `float16` column is NOT upcast to a 32-bit float
field — `GetArrowType` returns the native arrow 16-bit `float16` type and
`BuildArrowArray` a `HalfFloatBuilder`. -/
theorem float16_upcast_counterexample :
    getArrowType DataType.kFloat16 = some ArrowType.float16
    ∧ getArrowType DataType.kFloat16 ≠ some ArrowType.float32
    ∧ mkArrayBuilder DataType.kFloat16 = some ArrowBuilder.halfFloatB := by
  refine ⟨rfl, ?_, rfl⟩
  intro h
  exact ArrowType.noConfusion (Option.some.inj h)

/-- C4 (amended): in the lowering for columnar-binary output only `bfloat16`
is upcast to a 32-bit float field and value builder; `float16` maps to the
native 16-bit half-float field and builder. -/
theorem sixteen_bit_float_lowering :
    getArrowType DataType.kBFloat16 = some ArrowType.float32
    ∧ mkArrayBuilder DataType.kBFloat16 = some ArrowBuilder.floatB
    ∧ builderType ArrowBuilder.floatB = ArrowType.float32
    ∧ getArrowType DataType.kFloat16 = some ArrowType.float16
    ∧ mkArrayBuilder DataType.kFloat16 = some ArrowBuilder.halfFloatB
    ∧ builderType ArrowBuilder.halfFloatB = ArrowType.float16 :=
  ⟨rfl, rfl, rfl, rfl, rfl, rfl⟩

/-- C5: the schema half of the claim holds — the sparse struct omits the
`value` field for a single-bit element type and otherwise carries
`index`/`value` lists of the declared widths — but the per-value builder
construction dereferences the null value builder for the single-bit case
(`value_builder->type()` at the struct-type construction), a crash where the
claim requires a fault-free omission. The non-bit builder path works. -/
theorem sparse_bit_value_builder_crash :
    getArrowType (DataType.kSparse .elemInt32 .elemBit)
      = some (ArrowType.structT [("index", ArrowType.list ArrowType.int32)])
    ∧ getArrowType (DataType.kSparse .elemInt16 .elemBit)
      = some (ArrowType.structT [("index", ArrowType.list ArrowType.int16)])
    ∧ getArrowType (DataType.kSparse .elemInt32 .elemFloat)
      = some (ArrowType.structT [("index", ArrowType.list ArrowType.int32),
          ("value", ArrowType.list ArrowType.float32)])
    ∧ getArrowType (DataType.kSparse .elemInt64 .elemDouble)
      = some (ArrowType.structT [("index", ArrowType.list ArrowType.int64),
          ("value", ArrowType.list ArrowType.float64)])
    ∧ mkArrayBuilder (DataType.kSparse .elemInt32 .elemBit) = none
    ∧ mkArrayBuilder (DataType.kSparse .elemInt16 .elemBit) = none
    ∧ mkArrayBuilder (DataType.kSparse .elemInt32 .elemFloat)
      = some (ArrowBuilder.structB
          (ArrowType.structT [("index", ArrowType.list ArrowType.int32),
            ("value", ArrowType.list ArrowType.float32)])
          [ArrowBuilder.listB ArrowBuilder.int32B,
            ArrowBuilder.listB ArrowBuilder.floatB]) :=
  ⟨rfl, rfl, rfl, rfl, rfl, rfl, rfl⟩

/-! ### FVECS export: validation and record layout (`ExportToFVECS`) -/

/-- Faults surfaced by the export: `RecoverableError` aborts the query
cleanly and is reported to the caller; `UnrecoverableError` is an internal
fault. -/
inductive ExportError
  | recoverable (msg : String)
  | unrecoverable (msg : String)
deriving DecidableEq, Repr

/-- A column definition as consumed by the export (`ColumnDef`: name and
logical type). -/
structure ColumnDef where
  name : String
  type : DataType

/-- One materialized cell (`Value`) of a column vector, carrying the facets
the sinks consume: the `ToString()` rendering; for values of the vector
family additionally the raw bytes returned by `GetEmbedding()`; and for the
synthesized row-id values the composite (segment-id, segment-offset) pair. -/
inductive CellValue
  | str (text : String)
  | emb (text : String) (bytes : List Nat)
  | rowId (seg : Nat) (off : Nat)
deriving DecidableEq, Repr

/-- Raw embedding bytes of a value (`value.GetEmbedding()`). -/
def cellBytes : CellValue → List Nat
  | .emb _ b => b
  | .str _ => []
  | .rowId _ _ => []

/-- A stored block as the export reads it: `block_id()`, `segment_offset()`,
`row_count()`, the per-column value vectors (`GetConstColumnVector` then
`GetValue(row_idx)`), and the per-row creation/deletion timestamp vectors
(`GetCreateTSVector` / `GetDeleteTSVector`). -/
structure StorageBlock where
  blockId : Nat
  segOff : Nat
  rowCountB : Nat
  columns : List (List CellValue)
  createTs : List CellValue
  deleteTs : List CellValue

/-- A stored segment snapshot: its id, its `DeleteFilter` visibility
predicate, and its block list. -/
structure StorageSegment where
  segmentId : Nat
  visible : Nat → Bool
  blocks : List StorageBlock

/-- The up-front validation of `ExportToFVECS` (before any file or row is
touched): exactly one selected column (`column_idx_array_.size() != 1` is an
`UnrecoverableError`), whose logical type is `kEmbedding`
(`UnrecoverableError` otherwise), with `kElemFloat` elements (the `default`
branch raises the recoverable `Status::NotSupport`); on success the embedding
dimension is returned.  The source indexes `column_defs[idx]` unchecked; an
out-of-range index is modelled as an internal fault. -/
def fvecsCheck (columnDefs : List ColumnDef) (columnIdxArray : List Nat) :
    Except ExportError Nat :=
  match columnIdxArray with
  | [idx] =>
    match columnDefs[idx]? with
    | none => .error (.unrecoverable "column index out of range")
    | some cd =>
      match cd.type with
      | .kEmbedding elem dim =>
        match elem with
        | .elemFloat => .ok dim
        | _ => .error (.recoverable
            "only float element type embedding is supported now")
      | _ => .error (.unrecoverable
          "Only embedding column can be exported as FVECS file")
  | _ => .error (.unrecoverable
      "Only one column with embedding data type can be exported as FVECS file")

/-- Materialize one block for the FVECS scan: fetch the exported column
vector and check its size against the block's row count
(`Unmatched row_count between block and block_column`); the rows become the
raw embedding bytes consumed by the record writer. -/
def fvecsBlock (idx : Nat) (b : StorageBlock) :
    Except ExportError (ScanBlock (List Nat)) :=
  match b.columns[idx]? with
  | none => .error (.unrecoverable "Unmatched row_count between block and block_column")
  | some col =>
    if col.length = b.rowCountB then
      .ok ⟨b.segOff, col.map cellBytes⟩
    else .error (.unrecoverable "Unmatched row_count between block and block_column")

/-- Materialize the whole snapshot for the FVECS scan.  (Materialization is
eager here while the source checks each block as the scan reaches it; the
layout theorem below is stated under the hypothesis that materialization
succeeds, where the two orders agree.) -/
def fvecsSegs (idx : Nat) (segs : List StorageSegment) :
    Except ExportError (List (ScanSegment (List Nat))) :=
  segs.mapM (fun s =>
    (s.blocks.mapM (fvecsBlock idx)).map (fun bs => ⟨s.visible, bs⟩))

/-- The four little-endian bytes of a 32-bit value
(`Append(&dimension, sizeof(dimension))` on a little-endian machine). -/
def i32le (n : Nat) : List Nat :=
  [n % 256, n / 256 % 256, n / 65536 % 256, n / 16777216 % 256]

/-- Fuel-driven floor of the base-2 logarithm (`log2Go n n = Nat.log2 n` for
every `n`, written with structural recursion so that it evaluates). -/
def log2Go : Nat → Nat → Nat
  | 0, _ => 0
  | fuel + 1, n => if n ≤ 1 then 0 else log2Go fuel (n / 2) + 1

/-- Floor of the base-2 logarithm of a positive integer. -/
def log2floor (n : Nat) : Nat := log2Go n n

/-- IEEE-754 binary32 bit pattern of a positive integer (exact for values
below 2^24): sign 0, biased exponent `127 + floor(log2 n)`, mantissa the
bits of `n` below the leading one, left-aligned in the 23 fraction bits. -/
def f32BitsOfNat (n : Nat) : Nat :=
  (127 + log2floor n) * 2 ^ 23 + (n - 2 ^ log2floor n) * 2 ^ (23 - log2floor n)

/-- Little-endian IEEE-754 binary32 bytes of a positive integer value. -/
def f32le (n : Nat) : List Nat := i32le (f32BitsOfNat n)

/-- One FVECS record: the `i32` dimension then the raw embedding bytes —
nothing else (`Append(&dimension, 4)` followed by
`Append(embedding.data(), embedding.size_bytes())`). -/
def fvecsRecord (dim : Nat) (bytes : List Nat) : List Nat := i32le dim ++ bytes

/-- Bytes of one produced file: the concatenation of its records, with no
file header and no trailer. -/
def fvecsFileBytes (dim : Nat) (rows : List (List Nat)) : List Nat :=
  (rows.map (fvecsRecord dim)).flatten

/-- `ExportToFVECS` end to end: validate, materialize, run the shared scan
loop, and render each produced file (base file `path`, then `.part{i}`),
returning the row count and the named file contents. -/
def fvecsExport (columnDefs : List ColumnDef) (segs : List StorageSegment)
    (path : String) (columnIdxArray : List Nat) (k limit offset : Nat) :
    Except ExportError (Nat × List (String × List Nat)) :=
  match fvecsCheck columnDefs columnIdxArray with
  | .error e => .error e
  | .ok dim =>
    match fvecsSegs (columnIdxArray.headD 0) segs with
    | .error e => .error e
    | .ok dsegs =>
      let st := runScan dsegs k limit offset
      .ok (st.rowCount,
        st.files.enum.map (fun p => (exportFileName path p.1, fvecsFileBytes dim p.2)))

theorem fvecsFileBytes_flatten (dim : Nat) (fs : List (List (List Nat))) :
    (fs.map (fvecsFileBytes dim)).flatten = fvecsFileBytes dim fs.flatten := by
  induction fs with
  | nil => rfl
  | cons f fs ih =>
      simp only [List.map_cons, List.flatten_cons, ih, fvecsFileBytes,
        List.map_append, List.flatten_append]

theorem mapFiles_snd {α β : Type} (f : Nat → String) (g : α → β) (l : List α) :
    (l.enum.map (fun p => (f p.1, g p.2))).map Prod.snd = l.map g := by
  rw [List.map_map]
  have h : l.map g = (l.enum.map Prod.snd).map g := by rw [List.enum_map_snd]
  rw [h, List.map_map]
  exact List.map_congr_left (fun p _ => rfl)

/-- C6 counterexample: selecting two columns (even two copies of a perfectly
valid float-embedding column) raises an `UnrecoverableError` internal fault,
not the recoverable configuration fault the claim promises. -/
theorem fvecs_multi_column_unrecoverable_counterexample :
    fvecsCheck [⟨"v", .kEmbedding .elemFloat 2⟩] [0, 0]
        = .error (.unrecoverable
            "Only one column with embedding data type can be exported as FVECS file")
      ∧ ∀ m, fvecsCheck [⟨"v", .kEmbedding .elemFloat 2⟩] [0, 0]
          ≠ .error (.recoverable m) := by
  refine ⟨rfl, ?_⟩
  intro m h
  simp [fvecsCheck] at h

/-- C6 (amended): the FVECS validation rejects every unsupported
configuration before any row is processed, but only the unsupported element
type is a recoverable fault: a column list not selecting exactly one column
and a selected column whose type is not `kEmbedding` raise unrecoverable
internal faults; a `kEmbedding` column with a non-float element type raises
the recoverable `NotSupport` fault; and every validation fault propagates out
of the whole export unchanged, before any row or file content is produced. -/
theorem fvecs_validation_faults (columnDefs : List ColumnDef)
    (arr : List Nat) (segs : List StorageSegment) (path : String)
    (k limit offset : Nat) :
    (arr.length ≠ 1 →
      fvecsCheck columnDefs arr
        = .error (.unrecoverable
            "Only one column with embedding data type can be exported as FVECS file"))
    ∧ (∀ idx cd, arr = [idx] → columnDefs[idx]? = some cd →
        (∀ e d, cd.type ≠ .kEmbedding e d) →
        ∃ m, fvecsCheck columnDefs arr = .error (.unrecoverable m))
    ∧ (∀ idx cd e d, arr = [idx] → columnDefs[idx]? = some cd →
        cd.type = .kEmbedding e d → e ≠ .elemFloat →
        ∃ m, fvecsCheck columnDefs arr = .error (.recoverable m))
    ∧ (∀ err, fvecsCheck columnDefs arr = .error err →
        fvecsExport columnDefs segs path arr k limit offset = .error err) := by
  refine ⟨?_, ?_, ?_, ?_⟩
  · intro h
    cases arr with
    | nil => rfl
    | cons a t =>
        cases t with
        | nil => simp at h
        | cons b t2 => rfl
  · intro idx cd harr hget htype
    subst harr
    simp only [fvecsCheck, hget]
    cases hcd : cd.type <;>
      first
        | exact ⟨_, rfl⟩
        | exact absurd hcd (htype _ _)
  · intro idx cd e d harr hget hty he
    subst harr
    simp only [fvecsCheck, hget, hty]
    cases e <;> first | exact ⟨_, rfl⟩ | exact absurd rfl he
  · intro err h
    simp only [fvecsExport, h]

/-- Concrete configurations exercising each validation fault. -/
def fvecsDefsVarchar : List ColumnDef := [⟨"s", .kVarchar⟩]

def fvecsDefsI8 : List ColumnDef := [⟨"v8", .kEmbedding .elemInt8 4⟩]

theorem fvecs_validation_faults_witness :
    fvecsCheck [(⟨"v", .kEmbedding .elemFloat 2⟩ : ColumnDef)] []
        = .error (.unrecoverable
            "Only one column with embedding data type can be exported as FVECS file")
    ∧ (∃ m, fvecsCheck fvecsDefsVarchar [0] = .error (.unrecoverable m))
    ∧ (∃ m, fvecsCheck fvecsDefsI8 [0] = .error (.recoverable m))
    ∧ fvecsExport fvecsDefsVarchar [] "out" [0] 0 0 0
        = .error (.unrecoverable
            "Only embedding column can be exported as FVECS file") := by
  refine ⟨?_, ?_, ?_, ?_⟩
  · exact (fvecs_validation_faults _ [] [] "out" 0 0 0).1 (by decide)
  · exact (fvecs_validation_faults fvecsDefsVarchar [0] [] "out" 0 0 0).2.1
      0 ⟨"s", .kVarchar⟩ rfl rfl
      (by intro e d h; exact DataType.noConfusion h)
  · exact (fvecs_validation_faults fvecsDefsI8 [0] [] "out" 0 0 0).2.2.1
      0 ⟨"v8", .kEmbedding .elemInt8 4⟩ .elemInt8 4 rfl rfl rfl
      (by intro h; exact EmbeddingDataType.noConfusion h)
  · exact (fvecs_validation_faults fvecsDefsVarchar [0] [] "out" 0 0 0).2.2.2
      _ rfl

/-- The C7 scenario: one float-embedding column of dimension 2, one fully
visible segment, one block holding the two rows [1.0, 2.0] and [3.0, 4.0]. -/
def fvecsDefs7 : List ColumnDef := [⟨"v", .kEmbedding .elemFloat 2⟩]

def fvecsSegs7 : List StorageSegment :=
  [⟨0, fun _ => true,
    [⟨0, 0, 2, [[.emb "[1,2]" (f32le 1 ++ f32le 2),
                 .emb "[3,4]" (f32le 3 ++ f32le 4)]], [], []⟩]⟩]

def fvecsDsegs7 : List (ScanSegment (List Nat)) :=
  [⟨fun _ => true, [⟨0, [f32le 1 ++ f32le 2, f32le 3 ++ f32le 4]⟩]⟩]

/-- C7: every FVECS file is exactly the concatenation of its rows' records,
each record a 4-byte little-endian `i32` dimension count immediately followed
by the raw element bytes, with no file header and no trailer: concatenated
over the produced files, the output equals `i32le dim ++ bytes` concatenated
over exactly the emitted rows.  Concretely, two visible rows [1.0, 2.0] and
[3.0, 4.0] of a dimension-2 float column produce exactly the two 12-byte
records `02 00 00 00  00 00 80 3F  00 00 00 40` and
`02 00 00 00  00 00 40 40  00 00 80 40`. -/
theorem fvecs_record_layout :
    (∀ (defs : List ColumnDef) (segs : List StorageSegment) (path : String)
        (arr : List Nat) (k limit offset dim : Nat)
        (dsegs : List (ScanSegment (List Nat))) (n : Nat)
        (files : List (String × List Nat)),
      fvecsCheck defs arr = .ok dim →
      fvecsSegs (arr.headD 0) segs = .ok dsegs →
      fvecsExport defs segs path arr k limit offset = .ok (n, files) →
      (files.map Prod.snd).flatten
        = ((emittedOf (snapVisRows dsegs) offset limit).map (fvecsRecord dim)).flatten)
    ∧ fvecsExport fvecsDefs7 fvecsSegs7 "vecs" [0] 0 0 0
        = .ok (2, [("vecs",
            [2, 0, 0, 0, 0, 0, 128, 63, 0, 0, 0, 64,
             2, 0, 0, 0, 0, 0, 64, 64, 0, 0, 128, 64])]) := by
  constructor
  · intro defs segs path arr k limit offset dim dsegs n files hcheck hsegs hexp
    simp only [fvecsExport, hcheck, hsegs] at hexp
    obtain ⟨hn, hf⟩ := Prod.mk.inj (Except.ok.inj hexp)
    rw [← hf, mapFiles_snd, fvecsFileBytes_flatten]
    simp only [runScan, runScanFrom_spec, filesSim_flatten, List.flatten_cons,
      List.flatten_nil, List.nil_append]
    rfl
  · rfl

theorem fvecs_record_layout_witness :
    ([("vecs",
        [2, 0, 0, 0, 0, 0, 128, 63, 0, 0, 0, 64,
         2, 0, 0, 0, 0, 0, 64, 64, 0, 0, 128, 64])].map Prod.snd).flatten
      = ((emittedOf (snapVisRows fvecsDsegs7) 0 0).map (fvecsRecord 2)).flatten :=
  fvecs_record_layout.1 fvecsDefs7 fvecsSegs7 "vecs" [0] 0 0 0 2 fvecsDsegs7 2
    [("vecs",
      [2, 0, 0, 0, 0, 0, 128, 63, 0, 0, 0, 64,
       2, 0, 0, 0, 0, 0, 64, 64, 0, 0, 128, 64])]
    rfl rfl fvecs_record_layout.2

/-! ### CSV export (`ExportToCSV`) and the shared column materialization -/

/-- Modelled from the spec: the virtual-column selectors (row-id, created-at,
deleted-at) are sentinel values at the very top of the 64-bit column-id
space, never colliding with a physical column index; their definitions live
outside the shown source. -/
def COLUMN_IDENTIFIER_ROW_ID : Nat := 2 ^ 64 - 1

/-- Modelled from the spec: the created-at virtual-column sentinel. -/
def COLUMN_IDENTIFIER_CREATE : Nat := 2 ^ 64 - 2

/-- Modelled from the spec: the deleted-at virtual-column sentinel. -/
def COLUMN_IDENTIFIER_DELETE : Nat := 2 ^ 64 - 3

/-- Modelled from the spec: the fixed per-block row capacity used to
synthesize the virtual row-id run (`block_id * DEFAULT_BLOCK_CAPACITY`). -/
def DEFAULT_BLOCK_CAPACITY : Nat := 8192

/-- Modelled from the spec: the text rendering of a row-id value; its exact
format is opaque to every property checked here. -/
def rowIdText (seg off : Nat) : String := toString seg ++ "@" ++ toString off

/-- The selected columns of an export: all catalog columns in declaration
order when the caller's list is empty, else the caller's ordered list. -/
def selectColumnsOf (columnDefs : List ColumnDef) (columnIdxArray : List Nat) :
    List Nat :=
  if columnIdxArray.isEmpty then List.range columnDefs.length else columnIdxArray

/-- The output name of a selected column (the sentinel `switch` of the CSV
header loop and of the JSONL per-row key construction): the three virtual
selectors map to `_row_id` / `_create_timestamp` / `_delete_timestamp`, a
physical index to the catalog name (the source indexes `column_defs`
unchecked there; `none` models the out-of-bounds access). -/
def exportColumnName (columnDefs : List ColumnDef) (sel : Nat) : Option String :=
  if sel = COLUMN_IDENTIFIER_ROW_ID then some "_row_id"
  else if sel = COLUMN_IDENTIFIER_CREATE then some "_create_timestamp"
  else if sel = COLUMN_IDENTIFIER_DELETE then some "_delete_timestamp"
  else (columnDefs[sel]?).map ColumnDef.name

/-- Column materialization for one block (the `select_columns` switch shared
verbatim by the CSV, JSONL and PARQUET scan loops): the row-id selector
synthesizes `RowID(segment_id, block_id * DEFAULT_BLOCK_CAPACITY)` repeated
over the block's rows, the created-at/deleted-at selectors read the block's
timestamp vectors, and a physical index fetches the stored column vector and
checks its size against the block row count. -/
def materializeColumn (segmentId : Nat) (b : StorageBlock) (sel : Nat) :
    Except ExportError (List CellValue) :=
  if sel = COLUMN_IDENTIFIER_ROW_ID then
    .ok ((List.range b.rowCountB).map (fun _ =>
      .rowId segmentId (b.blockId * DEFAULT_BLOCK_CAPACITY)))
  else if sel = COLUMN_IDENTIFIER_CREATE then .ok b.createTs
  else if sel = COLUMN_IDENTIFIER_DELETE then .ok b.deleteTs
  else
    match b.columns[sel]? with
    | none => .error (.unrecoverable
        "Unmatched row_count between block and block_column")
    | some col =>
      if col.length = b.rowCountB then .ok col
      else .error (.unrecoverable
          "Unmatched row_count between block and block_column")

/-- CSV cell rendering (the per-value `switch` of the CSV row loop): values
of the vector family (embedding, multi-vector, tensor, tensor-array, sparse)
are wrapped in quotes around their canonical text
(`fmt::format("\x7b{}\x7d", ...)` with quote marks); every other value is its
plain `ToString()` text. -/
def csvCell : CellValue → String
  | .str t => t
  | .emb t _ => "\"" ++ t ++ "\""
  | .rowId seg off => rowIdText seg off

/-- One CSV line: the rendered cells joined by the delimiter, terminated by a
newline (the last column appends `\n` instead of the delimiter; an empty
column selection produces an empty line). -/
def csvLine (delim : String) : List CellValue → String
  | [] => ""
  | [v] => csvCell v ++ "\n"
  | v :: w :: rest => csvCell v ++ delim ++ csvLine delim (w :: rest)

/-- The CSV header line: the selected column names joined by the delimiter,
newline after the last (an empty selection produces an empty header). -/
def csvHeader (columnDefs : List ColumnDef) (delim : String) :
    List Nat → Option String
  | [] => some ""
  | [sel] => (exportColumnName columnDefs sel).map (fun nm => nm ++ "\n")
  | sel :: s2 :: rest =>
      match exportColumnName columnDefs sel, csvHeader columnDefs delim (s2 :: rest) with
      | some nm, some t => some (nm ++ delim ++ t)
      | _, _ => none

/-- The chunks present in the base file before scanning starts: the header
line when the header flag is on, nothing otherwise. -/
def csvSeed (columnDefs : List ColumnDef) (delim : String)
    (selectColumns : List Nat) (header : Bool) : Except ExportError (List String) :=
  if header then
    match csvHeader columnDefs delim selectColumns with
    | none => .error (.unrecoverable "column index out of range")
    | some h => .ok [h]
  else .ok []

/-- Materialize one block for the CSV scan: one cell vector per selected
column, then one rendered line per row (`GetValue(row_idx)` across the
materialized vectors; the timestamp vectors are trusted to span the block
per the paging contract). -/
def csvBlock (delim : String) (selectColumns : List Nat) (segmentId : Nat)
    (b : StorageBlock) : Except ExportError (ScanBlock String) :=
  (selectColumns.mapM (materializeColumn segmentId b)).map (fun cols =>
    ⟨b.segOff, (List.range b.rowCountB).map (fun i =>
      csvLine delim (cols.map (fun col => col.getD i (.str ""))))⟩)

/-- Materialize the whole snapshot for the CSV scan. -/
def csvSegs (delim : String) (selectColumns : List Nat)
    (segs : List StorageSegment) : Except ExportError (List (ScanSegment String)) :=
  segs.mapM (fun s =>
    (s.blocks.mapM (csvBlock delim selectColumns s.segmentId)).map
      (fun bs => ⟨s.visible, bs⟩))

/-- `ExportToCSV` end to end: resolve the column selection, write the
optional header into the base file before scanning, run the shared scan loop
emitting one line per surviving row, and render each produced file as the
byte concatenation of its chunks (base file `path`, then `.part{i}`). -/
def csvExport (columnDefs : List ColumnDef) (segs : List StorageSegment)
    (path : String) (columnIdxArray : List Nat) (delim : String)
    (header : Bool) (k limit offset : Nat) :
    Except ExportError (Nat × List (String × String)) :=
  match csvSeed columnDefs delim (selectColumnsOf columnDefs columnIdxArray) header with
  | .error e => .error e
  | .ok seedChunks =>
    match csvSegs delim (selectColumnsOf columnDefs columnIdxArray) segs with
    | .error e => .error e
    | .ok dsegs =>
      let st := runScanFrom k limit offset [seedChunks] dsegs
      .ok (st.rowCount,
        st.files.enum.map (fun p => (exportFileName path p.1, String.join p.2)))

theorem mapFiles_range {β γ : Type} (m : Nat) (g : Nat → β) (f : Nat → String)
    (j : β → γ) :
    ((List.range m).map g).enum.map (fun p => (f p.1, j p.2))
      = (List.range m).map (fun i => (f i, j (g i))) := by
  apply List.ext_getElem
  · simp
  · intro i h1 h2
    simp [List.getElem_enum]

theorem consHead_range_map {ρ : Type} (c : List ρ) (m : Nat) (g : Nat → List ρ) :
    consHead c ((List.range (m + 1)).map g)
      = (List.range (m + 1)).map (fun i => (if i = 0 then c else []) ++ g i) := by
  rw [List.range_succ_eq_map, List.map_cons, List.map_cons]
  show (c ++ g 0) :: _ = ((if 0 = 0 then c else []) ++ g 0) :: _
  rw [if_pos rfl]
  congr 1
  rw [List.map_map, List.map_map]
  apply List.map_congr_left
  intro i _
  simp

/-- The C8 scenario: columns (id:int, name:text) with three visible rows
(1,"a"), (2,"b"), (3,"c") in one block of one segment. -/
def csvDefs8 : List ColumnDef := [⟨"id", .kInteger⟩, ⟨"name", .kVarchar⟩]

def csvStore8 : List StorageSegment :=
  [⟨0, fun _ => true,
    [⟨0, 0, 3, [[.str "1", .str "2", .str "3"], [.str "a", .str "b", .str "c"]],
      [], []⟩]⟩]

/-- The C8/C9 scenario after materialization: one rendered line per row. -/
def csvDsegs8 : List (ScanSegment String) :=
  [⟨fun _ => true, [⟨0, ["1,a\n", "2,b\n", "3,c\n"]⟩]⟩]

/-- C8: the concrete delimited-text scenario — columns (id:int, name:text)
holding the three visible rows (1,"a"), (2,"b"), (3,"c"), header on,
delimiter `,`, offset 0 and limit 0 — produces exactly the bytes
`id,name\n1,a\n2,b\n3,c\n` in a single file; the synthetic selectors are
named `_row_id` / `_create_timestamp` / `_delete_timestamp`; and only
vector-family cell values are wrapped in quotes by the row renderer. -/
theorem csv_concrete_export :
    csvExport csvDefs8 csvStore8 "out" [] "," true 0 0 0
        = .ok (3, [("out", "id,name\n1,a\n2,b\n3,c\n")])
    ∧ exportColumnName csvDefs8 COLUMN_IDENTIFIER_ROW_ID = some "_row_id"
    ∧ exportColumnName csvDefs8 COLUMN_IDENTIFIER_CREATE = some "_create_timestamp"
    ∧ exportColumnName csvDefs8 COLUMN_IDENTIFIER_DELETE = some "_delete_timestamp"
    ∧ csvCell (.emb "[1.0,2.0]" []) = "\"[1.0,2.0]\""
    ∧ csvCell (.str "plain") = "plain" :=
  ⟨rfl, rfl, rfl, rfl, rfl, rfl⟩

/-- C9: with the header flag on and file splitting active (k ≠ 0), the
header line is written exactly once, into the base file before scanning
begins: the base file is the header followed by the first chunk of emitted
lines, and every later `.part{i}` file is exactly its chunk of lines with no
header. -/
theorem csv_header_once (columnDefs : List ColumnDef) (segs : List StorageSegment)
    (path : String) (arr : List Nat) (delim : String) (k limit offset : Nat)
    (hdr : String) (dsegs : List (ScanSegment String)) (n : Nat)
    (files : List (String × String))
    (hk : k ≠ 0)
    (hhdr : csvHeader columnDefs delim (selectColumnsOf columnDefs arr) = some hdr)
    (hsegs : csvSegs delim (selectColumnsOf columnDefs arr) segs = .ok dsegs)
    (hexp : csvExport columnDefs segs path arr delim true k limit offset
      = .ok (n, files)) :
    files = (List.range
        (fileCount k (emittedOf (snapVisRows dsegs) offset limit).length)).map
      (fun i => (exportFileName path i,
        String.join ((if i = 0 then [hdr] else [])
          ++ chunkAt k (emittedOf (snapVisRows dsegs) offset limit) i))) := by
  have hseed : csvSeed columnDefs delim (selectColumnsOf columnDefs arr) true
      = .ok [hdr] := by
    unfold csvSeed
    rw [if_pos rfl, hhdr]
  simp only [csvExport, hseed, hsegs] at hexp
  obtain ⟨hn, hf⟩ := Prod.mk.inj (Except.ok.inj hexp)
  rw [← hf]
  simp only [runScanFrom_spec]
  have hseed2 : filesSim k 0 [[hdr]] (emittedOf (snapVisRows dsegs) offset limit)
      = consHead [hdr]
          (filesSim k 0 [[]] (emittedOf (snapVisRows dsegs) offset limit)) := by
    have h := filesSim_seed k [hdr] (emittedOf (snapVisRows dsegs) offset limit) 0 [] []
    simpa using h
  rw [hseed2, filesSim_closed k hk]
  obtain ⟨m, hm⟩ := fileCount_pos k (emittedOf (snapVisRows dsegs) offset limit).length
  rw [hm, consHead_range_map, mapFiles_range]

theorem csv_header_once_witness :
    [("out", "id,name\n1,a\n2,b\n"), ("out.part1", "3,c\n")]
      = (List.range
          (fileCount 2 (emittedOf (snapVisRows csvDsegs8) 0 0).length)).map
        (fun i => (exportFileName "out" i,
          String.join ((if i = 0 then ["id,name\n"] else [])
            ++ chunkAt 2 (emittedOf (snapVisRows csvDsegs8) 0 0) i))) :=
  csv_header_once csvDefs8 csvStore8 "out" [] "," 2 0 0 "id,name\n" csvDsegs8 3
    [("out", "id,name\n1,a\n2,b\n"), ("out.part1", "3,c\n")]
    (by decide) rfl rfl rfl

/-! ### PARQUET schema construction and the virtual-column selectors -/

/-- The PARQUET schema construction: each selected column id indexes
`column_defs` DIRECTLY — there is no sentinel `switch` here, unlike the CSV
header, the JSONL key construction and the shared per-block column
materialization — and the column is lowered with `GetArrowType`; `none`
models the out-of-bounds access (or a lowering fault). -/
def parquetSchemaFields (columnDefs : List ColumnDef) :
    List Nat → Option (List (String × ArrowType))
  | [] => some []
  | id :: rest =>
    match columnDefs[id]? with
    | none => none
    | some cd =>
      match getArrowType cd.type, parquetSchemaFields columnDefs rest with
      | some t, some fs => some ((cd.name, t) :: fs)
      | _, _ => none

theorem parquetSchemaFields_eq_none (columnDefs : List ColumnDef)
    (selectColumns : List Nat) (sel : Nat) (ha : sel ∈ selectColumns)
    (h : columnDefs[sel]? = none) :
    parquetSchemaFields columnDefs selectColumns = none := by
  induction selectColumns with
  | nil => simp at ha
  | cons x xs ih =>
      rcases List.mem_cons.mp ha with hx | hx
      · subst hx
        simp only [parquetSchemaFields, h]
      · cases hcx : columnDefs[x]? with
        | none => simp only [parquetSchemaFields, hcx]
        | some cd =>
            simp only [parquetSchemaFields, hcx, ih hx]
            cases getArrowType cd.type <;> rfl

/-- C10: whenever the column selection contains one of the three virtual
selectors (row-id, created-at, deleted-at sentinels), the PARQUET schema
construction indexes the catalog's column-definition list out of bounds and
faults, while the very same selector is accepted by the header/key naming
and by the shared per-block column materialization used by the text and
line-JSON sinks. -/
theorem parquet_virtual_column_oob (columnDefs : List ColumnDef)
    (selectColumns : List Nat) (sel : Nat)
    (hsel : sel = COLUMN_IDENTIFIER_ROW_ID ∨ sel = COLUMN_IDENTIFIER_CREATE
      ∨ sel = COLUMN_IDENTIFIER_DELETE)
    (hmem : sel ∈ selectColumns)
    (hlen : columnDefs.length ≤ COLUMN_IDENTIFIER_DELETE) :
    parquetSchemaFields columnDefs selectColumns = none
    ∧ (∃ nm, exportColumnName columnDefs sel = some nm)
    ∧ ∀ (segmentId : Nat) (b : StorageBlock),
        ∃ cells, materializeColumn segmentId b sel = .ok cells := by
  have hge : COLUMN_IDENTIFIER_DELETE ≤ sel := by
    rcases hsel with h | h | h <;> subst h <;> decide
  refine ⟨?_, ?_, ?_⟩
  · exact parquetSchemaFields_eq_none columnDefs selectColumns sel hmem
      (List.getElem?_eq_none (le_trans hlen hge))
  · rcases hsel with h | h | h <;> subst h
    · refine ⟨"_row_id", ?_⟩
      unfold exportColumnName
      rw [if_pos rfl]
    · refine ⟨"_create_timestamp", ?_⟩
      unfold exportColumnName
      rw [if_neg (by decide), if_pos rfl]
    · refine ⟨"_delete_timestamp", ?_⟩
      unfold exportColumnName
      rw [if_neg (by decide), if_neg (by decide), if_pos rfl]
  · intro segmentId b
    rcases hsel with h | h | h <;> subst h
    · refine ⟨(List.range b.rowCountB).map (fun _ =>
        .rowId segmentId (b.blockId * DEFAULT_BLOCK_CAPACITY)), ?_⟩
      unfold materializeColumn
      rw [if_pos rfl]
    · refine ⟨b.createTs, ?_⟩
      unfold materializeColumn
      rw [if_neg (by decide), if_pos rfl]
    · refine ⟨b.deleteTs, ?_⟩
      unfold materializeColumn
      rw [if_neg (by decide), if_neg (by decide), if_pos rfl]

theorem parquet_virtual_column_oob_witness :
    parquetSchemaFields [(⟨"id", .kInteger⟩ : ColumnDef)]
        [COLUMN_IDENTIFIER_ROW_ID] = none
    ∧ (∃ nm, exportColumnName [(⟨"id", .kInteger⟩ : ColumnDef)]
        COLUMN_IDENTIFIER_ROW_ID = some nm)
    ∧ (∃ cells, materializeColumn 0 ⟨0, 0, 2, [], [], []⟩
        COLUMN_IDENTIFIER_ROW_ID = .ok cells) :=
  ⟨(parquet_virtual_column_oob [⟨"id", .kInteger⟩] [COLUMN_IDENTIFIER_ROW_ID]
      COLUMN_IDENTIFIER_ROW_ID (Or.inl rfl) (List.mem_singleton.mpr rfl)
      (by decide)).1,
   (parquet_virtual_column_oob [⟨"id", .kInteger⟩] [COLUMN_IDENTIFIER_ROW_ID]
      COLUMN_IDENTIFIER_ROW_ID (Or.inl rfl) (List.mem_singleton.mpr rfl)
      (by decide)).2.1,
   (parquet_virtual_column_oob [⟨"id", .kInteger⟩] [COLUMN_IDENTIFIER_ROW_ID]
      COLUMN_IDENTIFIER_ROW_ID (Or.inl rfl) (List.mem_singleton.mpr rfl)
      (by decide)).2.2 0 ⟨0, 0, 2, [], [], []⟩⟩

end Infinity